import Mathlib

/-!
Verification development for the Firestore collection exporter
(`get_collection.py`).  The program performs a depth-first export of a
Firestore collection tree into a directory of JSON files.  We embed the
store as a tree datatype, the Python values handled by `json.dump` with
the custom `FirestoreEncoder` as a value datatype, and the traversal
(`process_document` / `process_collection` /
`retrieve_collection_with_subcollections`) as pure functions producing a
trace of filesystem / logging events, mirroring the source line by line.
-/

/-- Model of a non-JSON-native Python object as seen by
`FirestoreEncoder.default`: the attribute / type tests the encoder
performs, together with the results of the method calls it may make
(`obj.isoformat()`, `obj.path`, `str(obj)`). -/
structure PyObj where
  /-- `hasattr(obj, 'timestamp')` -/
  hasTimestamp : Bool
  /-- `isinstance(obj, datetime.datetime)` -/
  isDatetime : Bool
  /-- `hasattr(obj, 'path')` -/
  hasPath : Bool
  /-- `hasattr(obj, '_document_path')` -/
  hasDocumentPath : Bool
  /-- `str(type(obj)).startswith("<class 'google.cloud.firestore")` -/
  typeIsFirestore : Bool
  /-- value of `obj.isoformat()` -/
  isoformat : String
  /-- value of `obj.path` -/
  path : String
  /-- value of `str(obj)` -/
  strRepr : String
deriving DecidableEq

/-- Result of `FirestoreEncoder.default(obj)`: a plain string, the tagged
reference dictionary, or a `TypeError` raised by `super().default(obj)`. -/
inductive EncResult where
  | text (s : String)
  | refObj (path : String)
  | typeError
deriving DecidableEq

/-- Shallow embedding of `FirestoreEncoder.default` (get_collection.py
lines 11-29): the `if/elif` ladder over the object's attributes. -/
def FirestoreEncoder_default (o : PyObj) : EncResult :=
  if o.hasTimestamp then .text o.isoformat
  else if o.isDatetime then .text o.isoformat
  else if o.hasPath then .refObj o.path
  else if o.hasDocumentPath || o.typeIsFirestore then .text o.strRepr
  else .typeError

mutual
/-- A Python value appearing in a document's field mapping: JSON-native
scalars, lists, dicts, or a non-native object handled by the encoder. -/
inductive PyVal where
  | pynone
  | pybool (b : Bool)
  | pyint (n : Int)
  | pystr (s : String)
  | pylist (xs : PyList)
  | pydict (kvs : PyDict)
  | pyobj (o : PyObj)
/-- A Python list of values. -/
inductive PyList where
  | nil
  | cons (v : PyVal) (rest : PyList)
/-- A Python dict (insertion-ordered association list). -/
inductive PyDict where
  | nil
  | cons (k : String) (v : PyVal) (rest : PyDict)
end

mutual
/-- A JSON value as written by `json.dump`. -/
inductive JValue where
  | jnull
  | jbool (b : Bool)
  | jint (n : Int)
  | jstr (s : String)
  | jarr (xs : JArr)
  | jobj (kvs : JObj)
/-- A JSON array. -/
inductive JArr where
  | nil
  | cons (v : JValue) (rest : JArr)
/-- A JSON object (ordered key/value list). -/
inductive JObj where
  | nil
  | cons (k : String) (v : JValue) (rest : JObj)
end

/-- The JSON value produced when `json.dump` consults
`FirestoreEncoder.default` on a non-native object: strings serialize as
JSON strings, the reference case as the tagged two-field dictionary, and
a `TypeError` aborts serialization (`none`). -/
def encodeObjResult (o : PyObj) : Option JValue :=
  match FirestoreEncoder_default o with
  | .text s => some (.jstr s)
  | .refObj p =>
      some (.jobj (.cons "__firestore_reference__" (.jbool true)
                  (.cons "path" (.jstr p) .nil)))
  | .typeError => none

mutual
/-- Serialization of one Python value by `json.dump(..., cls=FirestoreEncoder)`;
`none` means a `TypeError` is raised during the dump. -/
def encodeVal : PyVal → Option JValue
  | .pynone => some .jnull
  | .pybool b => some (.jbool b)
  | .pyint n => some (.jint n)
  | .pystr s => some (.jstr s)
  | .pylist xs => (encodeList xs).map .jarr
  | .pydict kvs => (encodeDict kvs).map .jobj
  | .pyobj o => encodeObjResult o
/-- Serialization of a Python list. -/
def encodeList : PyList → Option JArr
  | .nil => some .nil
  | .cons v rest =>
      match encodeVal v, encodeList rest with
      | some jv, some jrest => some (.cons jv jrest)
      | _, _ => none
/-- Serialization of a Python dict. -/
def encodeDict : PyDict → Option JObj
  | .nil => some .nil
  | .cons k v rest =>
      match encodeVal v, encodeDict rest with
      | some jv, some jrest => some (.cons k jv jrest)
      | _, _ => none
end

mutual
/-- A Firestore document: its id, whether it exists (`doc.exists`),
error-injection flags for the two store/filesystem operations that can
raise inside `process_document` (`doc_ref.get()` and the `open` of the
document file), its field data, and its subcollections. -/
inductive FDoc where
  | mk (id : String) (docExists getErr writeErr : Bool)
      (data : PyDict) (subcols : FCols)
/-- A list of sibling documents, in the iteration order returned by
`collection_ref.stream()`. -/
inductive FDocs where
  | nil
  | cons (d : FDoc) (rest : FDocs)
/-- A Firestore collection: its id, an error-injection flag for
`collection_ref.stream()`, and its documents. -/
inductive FCol where
  | mk (id : String) (streamErr : Bool) (docs : FDocs)
/-- A list of subcollections of a document, in the order returned by
`doc_ref.collections()`. -/
inductive FCols where
  | nil
  | cons (c : FCol) (rest : FCols)
end

def FDoc.id : FDoc → String
  | .mk i _ _ _ _ _ => i

def FDoc.docExists : FDoc → Bool
  | .mk _ e _ _ _ _ => e

def FDoc.getErr : FDoc → Bool
  | .mk _ _ g _ _ _ => g

def FDoc.writeErr : FDoc → Bool
  | .mk _ _ _ w _ _ => w

def FDoc.data : FDoc → PyDict
  | .mk _ _ _ _ dt _ => dt

def FDoc.subcols : FDoc → FCols
  | .mk _ _ _ _ _ s => s

def FCol.id : FCol → String
  | .mk i _ _ => i

def FCol.streamErr : FCol → Bool
  | .mk _ s _ => s

def FCol.docs : FCol → FDocs
  | .mk _ _ d => d

def FDocs.toList : FDocs → List FDoc
  | .nil => []
  | .cons d rest => d :: rest.toList

def FCols.toList : FCols → List FCol
  | .nil => []
  | .cons c rest => c :: rest.toList

/-- `get_all_subcollections` (lines 37-39): the list of subcollection ids. -/
def get_all_subcollections (cs : FCols) : List String :=
  (cs.toList).map FCol.id

/-- One observable step of the run: store reads, directory creation, file
writes and the `print` calls, each carrying the store path (a list of
path segments; `doc_ref.path` is their `'/'`-join) it interpolates. -/
inductive Event where
  /-- `doc_ref.get()` succeeded for the document at path `p`. -/
  | readDoc (p : List String)
  /-- `collection_ref.stream()` succeeded for the collection at path `p`. -/
  | streamCol (p : List String)
  /-- `os.makedirs(os.path.dirname(dir_path), exist_ok=True)`: the
  directory for segments `dir` under the output root. -/
  | mkdirs (dir : List String)
  /-- the document file `<base>/<p>.json` was opened and `json.dump`
  ran; `content = none` means the dump raised `TypeError` after the file
  was created. -/
  | writeDoc (p : List String) (content : Option JObj)
  /-- the manifest file `<base>/<p>_subcollections.json` was written with
  the given subcollection names. -/
  | writeMan (p : List String) (names : List String)
  /-- `print(f"Saved document {path} to {file_path}")` -/
  | logSaved (p : List String)
  /-- `print(f"Document {path} does not exist")` -/
  | logMissing (p : List String)
  /-- `print(f"Error processing document {path}: ...")` -/
  | logErrDoc (p : List String)
  /-- `print(f"Error processing collection {path}: ...")` -/
  | logErrCol (p : List String)
  /-- `os.makedirs(output_dir)` for the output root itself. -/
  | mkOutputDir
  /-- `print(f"Created directory: {output_dir}")` -/
  | logCreatedDir
  /-- `print(f"Retrieved collection '...' with all subcollections")` -/
  | logRetrieved (name : String)

/-- The branch structure of `process_document` (lines 43-79) for the
document with the given `id` in the collection at store path `colPath`:
`de`/`ge`/`we` are the existence flag and the two error flags, `enc` the
serialized field mapping (`none` when `json.dump` raises `TypeError`),
`subIds` the subcollection id list returned by `get_all_subcollections`,
and `subTrace` the trace of the `for subcol_id in subcollections` loop. -/
def doc_steps (id : String) (de ge we : Bool) (enc : Option JObj)
    (subIds : List String) (subTrace : List Event)
    (colPath : List String) : List Event :=
  if ge then [.logErrDoc (colPath ++ [id])]
  else if !de then [.readDoc (colPath ++ [id]), .logMissing (colPath ++ [id])]
  else
    .readDoc (colPath ++ [id]) :: .mkdirs colPath ::
    (if we then [.logErrDoc (colPath ++ [id])]
     else
      match enc with
      | none => [.writeDoc (colPath ++ [id]) none, .logErrDoc (colPath ++ [id])]
      | some j =>
          .writeDoc (colPath ++ [id]) (some j) :: .logSaved (colPath ++ [id]) ::
          (if subIds.isEmpty then []
           else .writeMan (colPath ++ [id]) subIds :: subTrace))

/-- The branch structure of `process_collection` (lines 83-92) for the
collection with the given `id` under the document at store path
`parentPath`: `se` is the stream error flag and `docsTrace` the trace of
the `for doc in docs` loop. -/
def col_steps (id : String) (se : Bool) (docsTrace : List Event)
    (parentPath : List String) : List Event :=
  if se then [.logErrCol (parentPath ++ [id])]
  else .streamCol (parentPath ++ [id]) :: docsTrace

mutual
/-- `process_document` (lines 41-79) as a trace of events.  `colPath` is
the store path of the containing collection; the document's own store
path is `colPath ++ [id]`.  A raised exception is modelled by the
corresponding `logErrDoc` event of the enclosing `except` block. -/
def process_document (d : FDoc) (colPath : List String) : List Event :=
  match d with
  | .mk id de ge we data subcols =>
      doc_steps id de ge we (encodeDict data) (get_all_subcollections subcols)
        (process_cols subcols (colPath ++ [id])) colPath
/-- The `for subcol_id in subcollections` loop (lines 74-76). -/
def process_cols (cs : FCols) (docPath : List String) : List Event :=
  match cs with
  | .nil => []
  | .cons c rest => process_collection c docPath ++ process_cols rest docPath
/-- `process_collection` (lines 81-92) as a trace of events.
`parentPath` is the store path of the parent document (`[]` for the root
collection). -/
def process_collection (c : FCol) (parentPath : List String) : List Event :=
  match c with
  | .mk id se docs =>
      col_steps id se (process_docs docs (parentPath ++ [id])) parentPath
/-- The `for doc in docs` loop (lines 87-89). -/
def process_docs (ds : FDocs) (colPath : List String) : List Event :=
  match ds with
  | .nil => []
  | .cons d rest => process_document d colPath ++ process_docs rest colPath
end

/-- `retrieve_collection_with_subcollections` (lines 94-107).
`outputDirPreexists` models `os.path.exists(output_dir)`, the one piece
of ambient filesystem state the run consults. -/
def retrieve_collection_with_subcollections
    (c : FCol) (outputDirPreexists : Bool) : List Event :=
  (if !outputDirPreexists then [Event.mkOutputDir, Event.logCreatedDir] else [])
  ++ process_collection c []
  ++ [Event.logRetrieved c.id]

/-- `os.path.join(base, *segments)` on a POSIX filesystem with plain
relative segments: each join step appends the separator and the next
segment (line 54 builds `dir_path` this way from `doc_ref.path.split('/')`). -/
def joinPath (base : String) (segs : List String) : String :=
  segs.foldl (fun acc s => acc ++ "/" ++ s) base

/-- The document data file path, line 58: `f"{dir_path}.json"`. -/
def docFilePath (base : String) (p : List String) : String :=
  joinPath base p ++ ".json"

/-- The subcollection manifest file path, line 69:
`f"{dir_path}_subcollections.json"`. -/
def manFilePath (base : String) (p : List String) : String :=
  joinPath base p ++ "_subcollections.json"

/-- The store path and kind (`false` = document data file, `true` =
manifest file) of a file-write event. -/
def writeKey : Event → Option (List String × Bool)
  | .writeDoc p _ => some (p, false)
  | .writeMan p _ => some (p, true)
  | _ => none

/-- All file-write keys of a trace, in order. -/
def writeKeys (t : List Event) : List (List String × Bool) :=
  t.filterMap writeKey

/-- All file-write events of a trace, in order (with their contents). -/
def writeEvents (t : List Event) : List Event :=
  t.filter fun e => (writeKey e).isSome

/-- The filesystem path a write key lands on under output root `base`. -/
def renderKey (base : String) (k : List String × Bool) : String :=
  if k.2 then manFilePath base k.1 else docFilePath base k.1

/-- The filesystem paths of all files written by a trace, in order. -/
def fileNames (base : String) (t : List Event) : List String :=
  (writeKeys t).map (renderKey base)

/-- The store path read by a store-read event (`doc_ref.get()` or
`collection_ref.stream()`). -/
def readKey : Event → Option (List String)
  | .readDoc p => some p
  | .streamCol p => some p
  | _ => none

/-- All store paths read by a trace, in order. -/
def readPaths (t : List Event) : List (List String) :=
  t.filterMap readKey

/-- The store path an event carries (the one its `print` interpolates or
its file/directory derives from; `[]` for the three root-level events). -/
def Event.path : Event → List String
  | .readDoc p => p
  | .streamCol p => p
  | .mkdirs d => d
  | .writeDoc p _ => p
  | .writeMan p _ => p
  | .logSaved p => p
  | .logMissing p => p
  | .logErrDoc p => p
  | .logErrCol p => p
  | .mkOutputDir => []
  | .logCreatedDir => []
  | .logRetrieved _ => []

/-- `q` lies in the subtree rooted at store path `p`. -/
def underPath (p q : List String) : Prop := ∃ r, q = p ++ r

theorem underPath_rfl (p : List String) : underPath p p := ⟨[], by simp⟩

theorem underPath_app (p r : List String) : underPath p (p ++ r) := ⟨r, rfl⟩

theorem underPath_trans {p q r : List String} (h1 : underPath p q)
    (h2 : underPath q r) : underPath p r := by
  obtain ⟨a, rfl⟩ := h1; obtain ⟨b, rfl⟩ := h2
  exact ⟨a ++ b, by simp⟩

theorem underPath_length {p q : List String} (h : underPath p q) :
    p.length ≤ q.length := by
  obtain ⟨a, rfl⟩ := h; simp

theorem underPath_one_length {p q : List String} {a : String}
    (h : underPath (p ++ [a]) q) : p.length + 1 ≤ q.length := by
  have := underPath_length h; simpa using this

theorem underPath_disjoint {cp : List String} {a b : String} (hab : a ≠ b)
    {x : List String} (ha : underPath (cp ++ [a]) x)
    (hb : underPath (cp ++ [b]) x) : False := by
  obtain ⟨r, hr⟩ := ha; obtain ⟨s, hs⟩ := hb
  rw [hr] at hs
  simp only [List.append_assoc, List.singleton_append] at hs
  have := List.append_cancel_left hs
  simp at this
  exact hab this.1

/-- C3: encoding policy of `FirestoreEncoder.default` as consulted by
`json.dump`: a timestamp-like value (one with a `timestamp` attribute,
or a `datetime` instance) serializes to its ISO-format text; a
document-reference-like value (one with a `path` attribute, not
timestamp-like) serializes to the tagged structure
`{"__firestore_reference__": true, "path": <store path>}`; any other
store-specific value (`_document_path` attribute or a
`google.cloud.firestore` class) serializes to its `str()` text. -/
theorem C3_encoding_policy (o : PyObj) :
    (o.hasTimestamp = true → encodeVal (.pyobj o) = some (.jstr o.isoformat))
    ∧ (o.hasTimestamp = false → o.isDatetime = true →
        encodeVal (.pyobj o) = some (.jstr o.isoformat))
    ∧ (o.hasTimestamp = false → o.isDatetime = false → o.hasPath = true →
        encodeVal (.pyobj o) =
          some (.jobj (.cons "__firestore_reference__" (.jbool true)
                      (.cons "path" (.jstr o.path) .nil))))
    ∧ (o.hasTimestamp = false → o.isDatetime = false → o.hasPath = false →
        (o.hasDocumentPath = true ∨ o.typeIsFirestore = true) →
        encodeVal (.pyobj o) = some (.jstr o.strRepr)) := by
  refine ⟨?_, ?_, ?_, ?_⟩ <;> intros <;>
    simp_all [encodeVal, encodeObjResult, FirestoreEncoder_default]

/-- Witness for C3 at three concrete objects, one per branch of the policy. -/
theorem C3_encoding_policy_witness :
    encodeVal (.pyobj ⟨true, false, true, false, false, "2024-01-01T00:00:00", "c/d", "X"⟩)
      = some (.jstr "2024-01-01T00:00:00")
    ∧ encodeVal (.pyobj ⟨false, false, true, false, false, "", "users/u1", "X"⟩)
      = some (.jobj (.cons "__firestore_reference__" (.jbool true)
                    (.cons "path" (.jstr "users/u1") .nil)))
    ∧ encodeVal (.pyobj ⟨false, false, false, true, false, "", "", "GeoPoint(1, 2)"⟩)
      = some (.jstr "GeoPoint(1, 2)") :=
  ⟨(C3_encoding_policy _).1 rfl,
   (C3_encoding_policy _).2.2.1 rfl rfl rfl,
   (C3_encoding_policy _).2.2.2 rfl rfl rfl (Or.inl rfl)⟩

/-- C10: the encoder's `if/elif` ladder gives the `timestamp` attribute
check precedence over the `path` attribute check: an object with both
attributes encodes to its ISO-format text and never to the tagged
reference structure. -/
theorem C10_timestamp_precedence (o : PyObj) (ht : o.hasTimestamp = true)
    (hp : o.hasPath = true) :
    FirestoreEncoder_default o = .text o.isoformat
    ∧ ∀ p, FirestoreEncoder_default o ≠ .refObj p := by
  simp [FirestoreEncoder_default, ht]

/-- Witness for C10 at a concrete object carrying both attributes. -/
theorem C10_timestamp_precedence_witness :
    (PyObj.hasTimestamp ⟨true, false, true, false, false, "T", "a/b", "S"⟩ = true)
    ∧ (PyObj.hasPath ⟨true, false, true, false, false, "T", "a/b", "S"⟩ = true)
    ∧ (FirestoreEncoder_default ⟨true, false, true, false, false, "T", "a/b", "S"⟩
        = .text "T"
       ∧ ∀ p, FirestoreEncoder_default ⟨true, false, true, false, false, "T", "a/b", "S"⟩
        ≠ .refObj p) :=
  ⟨rfl, rfl, C10_timestamp_precedence _ rfl rfl⟩

/-- Unfolding equation for `process_document` on a constructor. -/
theorem process_document_eq (i : String) (de ge we : Bool) (dt : PyDict)
    (sc : FCols) (cp : List String) :
    process_document (.mk i de ge we dt sc) cp =
      doc_steps i de ge we (encodeDict dt) (get_all_subcollections sc)
        (process_cols sc (cp ++ [i])) cp := by
  conv_lhs => rw [process_document.eq_def]

/-- Unfolding equation for `process_collection` on a constructor. -/
theorem process_collection_eq (i : String) (se : Bool) (ds : FDocs)
    (pp : List String) :
    process_collection (.mk i se ds) pp =
      col_steps i se (process_docs ds (pp ++ [i])) pp := by
  conv_lhs => rw [process_collection.eq_def]

theorem process_docs_nil (cp : List String) : process_docs .nil cp = [] := by
  rw [process_docs.eq_def]

theorem process_docs_cons (d : FDoc) (ds : FDocs) (cp : List String) :
    process_docs (.cons d ds) cp
      = process_document d cp ++ process_docs ds cp := by
  rw [process_docs.eq_def]

theorem process_cols_nil (p : List String) : process_cols .nil p = [] := by
  rw [process_cols.eq_def]

theorem process_cols_cons (c : FCol) (cs : FCols) (p : List String) :
    process_cols (.cons c cs) p
      = process_collection c p ++ process_cols cs p := by
  rw [process_cols.eq_def]

/-- C2: every store/filesystem error injected at a document or collection
(`doc_ref.get()` raising, the document-file `open` raising, `json.dump`
raising `TypeError`, `collection_ref.stream()` raising) is caught by the
enclosing `except` and yields exactly the error log event for the
offending path, with no retried read and no further processing of that
node; and the document / subcollection loops always continue with the
remaining siblings. -/
theorem C2_errors_logged_and_contained :
    (∀ (d : FDoc) (cp : List String), d.getErr = true →
      process_document d cp = [.logErrDoc (cp ++ [d.id])])
    ∧ (∀ (d : FDoc) (cp : List String), d.getErr = false → d.docExists = true →
        d.writeErr = true →
        process_document d cp =
          [.readDoc (cp ++ [d.id]), .mkdirs cp, .logErrDoc (cp ++ [d.id])])
    ∧ (∀ (d : FDoc) (cp : List String), d.getErr = false → d.docExists = true →
        d.writeErr = false → encodeDict d.data = none →
        process_document d cp =
          [.readDoc (cp ++ [d.id]), .mkdirs cp,
           .writeDoc (cp ++ [d.id]) none, .logErrDoc (cp ++ [d.id])])
    ∧ (∀ (c : FCol) (pp : List String), c.streamErr = true →
        process_collection c pp = [.logErrCol (pp ++ [c.id])])
    ∧ (∀ (d : FDoc) (ds : FDocs) (cp : List String),
        process_docs (.cons d ds) cp
          = process_document d cp ++ process_docs ds cp)
    ∧ (∀ (c : FCol) (cs : FCols) (p : List String),
        process_cols (.cons c cs) p
          = process_collection c p ++ process_cols cs p) := by
  refine ⟨?_, ?_, ?_, ?_, ?_, ?_⟩
  · intro d cp h; cases d with
    | mk i de ge we dt sc =>
      simp only [FDoc.getErr] at h
      simp [process_document_eq, doc_steps, h, FDoc.id]
  · intro d cp h1 h2 h3; cases d with
    | mk i de ge we dt sc =>
      simp only [FDoc.getErr, FDoc.docExists, FDoc.writeErr] at h1 h2 h3
      simp [process_document_eq, doc_steps, h1, h2, h3, FDoc.id]
  · intro d cp h1 h2 h3 h4; cases d with
    | mk i de ge we dt sc =>
      simp only [FDoc.getErr, FDoc.docExists, FDoc.writeErr, FDoc.data]
        at h1 h2 h3 h4
      simp [process_document_eq, doc_steps, h1, h2, h3, h4, FDoc.id]
  · intro c pp h; cases c with
    | mk i se ds =>
      simp only [FCol.streamErr] at h
      simp [process_collection_eq, col_steps, h, FCol.id]
  · intro d ds cp; rw [process_docs_cons]
  · intro c cs p; rw [process_cols_cons]

/-- Witness for C2: a document whose read raises, a collection whose
stream raises, and the loop stepping past the failed document. -/
theorem C2_errors_logged_and_contained_witness :
    process_document (.mk "bad" true true false .nil .nil) ["users"]
      = [.logErrDoc ["users", "bad"]]
    ∧ process_collection (.mk "locked" true .nil) []
      = [.logErrCol ["locked"]]
    ∧ process_docs (.cons (.mk "bad" true true false .nil .nil) .nil) ["users"]
      = process_document (.mk "bad" true true false .nil .nil) ["users"]
        ++ process_docs .nil ["users"] :=
  ⟨C2_errors_logged_and_contained.1 _ _ rfl,
   C2_errors_logged_and_contained.2.2.2.1 _ _ rfl,
   C2_errors_logged_and_contained.2.2.2.2.1 _ _ _⟩

/-- C6: a target document that does not exist is read, logged as missing,
and skipped: its trace contains no file write, and the document loop
continues with the remaining documents. -/
theorem C6_missing_document (d : FDoc) (cp : List String)
    (hg : d.getErr = false) (he : d.docExists = false) :
    process_document d cp =
      [.readDoc (cp ++ [d.id]), .logMissing (cp ++ [d.id])]
    ∧ writeEvents (process_document d cp) = []
    ∧ ∀ rest : FDocs,
        process_docs (.cons d rest) cp
          = process_document d cp ++ process_docs rest cp := by
  cases d with
  | mk i de ge we dt sc =>
    simp only [FDoc.getErr, FDoc.docExists] at hg he
    refine ⟨?_, ?_, ?_⟩
    · simp [process_document_eq, doc_steps, hg, he, FDoc.id]
    · simp [process_document_eq, doc_steps, hg, he, writeEvents, writeKey]
    · intro rest; rw [process_docs_cons]

/-- Witness for C6 at a concrete missing document. -/
theorem C6_missing_document_witness :
    (FDoc.getErr (.mk "ghost" false false false .nil .nil) = false)
    ∧ (FDoc.docExists (.mk "ghost" false false false .nil .nil) = false)
    ∧ (process_document (.mk "ghost" false false false .nil .nil) ["users"]
        = [.readDoc ["users", "ghost"], .logMissing ["users", "ghost"]]
      ∧ writeEvents (process_document (.mk "ghost" false false false .nil .nil)
          ["users"]) = []
      ∧ ∀ rest : FDocs,
          process_docs (.cons (.mk "ghost" false false false .nil .nil) rest)
              ["users"]
            = process_document (.mk "ghost" false false false .nil .nil) ["users"]
              ++ process_docs rest ["users"]) :=
  ⟨rfl, rfl, C6_missing_document _ _ rfl rfl⟩

/-- C4: for a document whose read and file write succeed, a manifest file
at the document's own path is written if and only if the document has at
least one subcollection; when written it lists exactly the subcollection
names obtained from `get_all_subcollections` and is followed by the
recursive processing of each listed subcollection. -/
theorem C4_manifest_iff_subcollections (d : FDoc) (cp : List String) (j : JObj)
    (hg : d.getErr = false) (he : d.docExists = true) (hw : d.writeErr = false)
    (hj : encodeDict d.data = some j) :
    ((∃ ns, Event.writeMan (cp ++ [d.id]) ns ∈ process_document d cp)
        ↔ d.subcols ≠ FCols.nil)
    ∧ (d.subcols = FCols.nil →
        process_document d cp =
          [.readDoc (cp ++ [d.id]), .mkdirs cp,
           .writeDoc (cp ++ [d.id]) (some j), .logSaved (cp ++ [d.id])])
    ∧ (∀ c rest, d.subcols = FCols.cons c rest →
        process_document d cp =
          [.readDoc (cp ++ [d.id]), .mkdirs cp,
           .writeDoc (cp ++ [d.id]) (some j), .logSaved (cp ++ [d.id]),
           .writeMan (cp ++ [d.id]) (get_all_subcollections (.cons c rest))]
          ++ process_cols (.cons c rest) (cp ++ [d.id])) := by
  cases d with
  | mk i de ge we dt sc =>
    simp only [FDoc.getErr, FDoc.docExists, FDoc.writeErr, FDoc.data,
      FDoc.subcols, FDoc.id] at hg he hw hj ⊢
    cases sc with
    | nil =>
      refine ⟨?_, ?_, ?_⟩
      · simp [process_document_eq, doc_steps, hg, he, hw, hj,
          get_all_subcollections, FCols.toList, process_cols_nil]
      · intro _
        simp [process_document_eq, doc_steps, hg, he, hw, hj,
          get_all_subcollections, FCols.toList]
      · intro c rest h; exact absurd h (by simp)
    | cons c0 rest0 =>
      refine ⟨?_, ?_, ?_⟩
      · simp [process_document_eq, doc_steps, hg, he, hw, hj,
          get_all_subcollections, FCols.toList]
      · intro h; exact absurd h (by simp)
      · intro c rest h
        obtain ⟨rfl, rfl⟩ : c0 = c ∧ rest0 = rest := by
          cases h; exact ⟨rfl, rfl⟩
        simp [process_document_eq, doc_steps, hg, he, hw, hj,
          get_all_subcollections, FCols.toList]

/-- Witness for C4 at a concrete document with one subcollection. -/
theorem C4_manifest_iff_subcollections_witness :
    (encodeDict (FDoc.data (.mk "u1" true false false .nil
        (.cons (.mk "posts" false .nil) .nil))) = some .nil)
    ∧ (((∃ ns, Event.writeMan ["users", "u1"] ns ∈
          process_document (.mk "u1" true false false .nil
            (.cons (.mk "posts" false .nil) .nil)) ["users"])
        ↔ FDoc.subcols (.mk "u1" true false false .nil
            (.cons (.mk "posts" false .nil) .nil)) ≠ FCols.nil)
      ∧ (FDoc.subcols (.mk "u1" true false false .nil
            (.cons (.mk "posts" false .nil) .nil)) = FCols.nil →
          process_document (.mk "u1" true false false .nil
            (.cons (.mk "posts" false .nil) .nil)) ["users"] =
            [.readDoc ["users", "u1"], .mkdirs ["users"],
             .writeDoc ["users", "u1"] (some .nil), .logSaved ["users", "u1"]])
      ∧ (∀ c rest, FDoc.subcols (.mk "u1" true false false .nil
            (.cons (.mk "posts" false .nil) .nil)) = FCols.cons c rest →
          process_document (.mk "u1" true false false .nil
            (.cons (.mk "posts" false .nil) .nil)) ["users"] =
            [.readDoc ["users", "u1"], .mkdirs ["users"],
             .writeDoc ["users", "u1"] (some .nil), .logSaved ["users", "u1"],
             .writeMan ["users", "u1"] (get_all_subcollections (.cons c rest))]
            ++ process_cols (.cons c rest) ["users", "u1"])) :=
  ⟨rfl, C4_manifest_iff_subcollections _ _ _ rfl rfl rfl rfl⟩

/-- C8: two runs of the exporter against the same unchanged store produce
exactly the same file-write events (same paths, same JSON contents, hence
byte-identical files), independently of the ambient filesystem state
(whether the output directory already exists), which only affects the
directory-creation message. -/
theorem C8_rerun_byte_identical (c : FCol) (pre1 pre2 : Bool) :
    writeEvents (retrieve_collection_with_subcollections c pre1)
      = writeEvents (retrieve_collection_with_subcollections c pre2)
    ∧ ∀ base, fileNames base (retrieve_collection_with_subcollections c pre1)
      = fileNames base (retrieve_collection_with_subcollections c pre2) := by
  have h : ∀ pre, writeEvents (retrieve_collection_with_subcollections c pre)
      = writeEvents (process_collection c []) := by
    intro pre
    cases pre <;>
      simp [retrieve_collection_with_subcollections, writeEvents, writeKey,
        List.filter_append]
  have h2 : ∀ pre, writeKeys (retrieve_collection_with_subcollections c pre)
      = writeKeys (process_collection c []) := by
    intro pre
    cases pre <;>
      simp [retrieve_collection_with_subcollections, writeKeys, writeKey,
        List.filterMap_append]
  exact ⟨(h pre1).trans (h pre2).symm,
    fun base => by rw [fileNames, h2, fileNames, h2]⟩

/-- Accumulates the paths of successfully dumped document files: only a
`writeDoc` event with `some` content records a completed document write. -/
def stepWrites (w : List (List String)) (e : Event) : List (List String) :=
  match e with
  | .writeDoc p (some _) => p :: w
  | _ => w

/-- An event is admissible after the document files in `w` have been
written: a manifest write requires its document's file to be present. -/
def eventOK (w : List (List String)) (e : Event) : Prop :=
  match e with
  | .writeMan p _ => p ∈ w
  | _ => True

/-- Every manifest write in the trace is preceded by a successful
document-file write at the same store path, given the document files in
`w` already exist. -/
def manOK : List (List String) → List Event → Prop
  | _, [] => True
  | w, e :: t => eventOK w e ∧ manOK (stepWrites w e) t

theorem manOK_append (a : List Event) : ∀ (w : List (List String))
    (b : List Event), manOK w (a ++ b) ↔ manOK w a ∧ manOK (a.foldl stepWrites w) b := by
  induction a with
  | nil => intro w b; simp [manOK]
  | cons e t ih => intro w b; simp [manOK, ih, and_assoc]

mutual
theorem manOK_document (d : FDoc) (cp : List String)
    (w : List (List String)) : manOK w (process_document d cp) := by
  cases d with
  | mk i de ge we dt sc =>
    rw [process_document_eq]
    cases ge with
    | true => simp [doc_steps, manOK, eventOK, stepWrites]
    | false =>
      cases de with
      | false => simp [doc_steps, manOK, eventOK, stepWrites]
      | true =>
        cases we with
        | true => simp [doc_steps, manOK, eventOK, stepWrites]
        | false =>
          rcases henc : encodeDict dt with _ | j
          · simp [doc_steps, manOK, eventOK, stepWrites, henc]
          · rcases hsub : get_all_subcollections sc with _ | ⟨n, ns⟩
            · simp [doc_steps, manOK, eventOK, stepWrites, henc, hsub]
            · simp only [doc_steps, henc, hsub, manOK, eventOK, stepWrites,
                Bool.false_eq_true, if_false, Bool.not_true, List.isEmpty_cons]
              refine ⟨trivial, trivial, trivial, trivial, ?_, ?_⟩
              · exact List.mem_cons_self _ _
              · exact manOK_cols sc (cp ++ [i]) ((cp ++ [i]) :: w)
theorem manOK_cols (cs : FCols) (dp : List String)
    (w : List (List String)) : manOK w (process_cols cs dp) := by
  cases cs with
  | nil => simp [process_cols_nil, manOK]
  | cons c rest =>
    rw [process_cols_cons]
    exact (manOK_append _ _ _).mpr
      ⟨manOK_collection c dp w, manOK_cols rest dp _⟩
theorem manOK_collection (c : FCol) (pp : List String)
    (w : List (List String)) : manOK w (process_collection c pp) := by
  cases c with
  | mk i se ds =>
    rw [process_collection_eq]
    cases se with
    | true => simp [col_steps, manOK, eventOK, stepWrites]
    | false =>
      simp only [col_steps, Bool.false_eq_true, if_false, manOK, eventOK,
        stepWrites]
      exact ⟨trivial, manOK_docs ds (pp ++ [i]) w⟩
theorem manOK_docs (ds : FDocs) (cp : List String)
    (w : List (List String)) : manOK w (process_docs ds cp) := by
  cases ds with
  | nil => simp [process_docs_nil, manOK]
  | cons d rest =>
    rw [process_docs_cons]
    exact (manOK_append _ _ _).mpr
      ⟨manOK_document d cp w, manOK_docs rest cp _⟩
end

theorem manOK_split (t₁ : List Event) : ∀ (w : List (List String))
    (t₂ : List Event) (p : List String) (ns : List String),
    manOK w (t₁ ++ .writeMan p ns :: t₂) →
    p ∈ w ∨ ∃ j, Event.writeDoc p (some j) ∈ t₁ := by
  induction t₁ with
  | nil =>
    intro w t₂ p ns h
    rw [List.nil_append] at h
    exact Or.inl h.1
  | cons e t ih =>
    intro w t₂ p ns h
    rw [List.cons_append] at h
    rcases ih (stepWrites w e) t₂ p ns h.2 with hmem | ⟨j, hj⟩
    · cases e with
      | writeDoc q ct =>
        cases ct with
        | none => exact Or.inl (by simpa [stepWrites] using hmem)
        | some j0 =>
          rcases (by simpa [stepWrites] using hmem : p = q ∨ p ∈ w) with rfl | hw
          · exact Or.inr ⟨j0, by simp⟩
          · exact Or.inl hw
      | writeMan q ns0 => exact Or.inl (by simpa [stepWrites] using hmem)
      | readDoc q => exact Or.inl (by simpa [stepWrites] using hmem)
      | streamCol q => exact Or.inl (by simpa [stepWrites] using hmem)
      | mkdirs q => exact Or.inl (by simpa [stepWrites] using hmem)
      | logSaved q => exact Or.inl (by simpa [stepWrites] using hmem)
      | logMissing q => exact Or.inl (by simpa [stepWrites] using hmem)
      | logErrDoc q => exact Or.inl (by simpa [stepWrites] using hmem)
      | logErrCol q => exact Or.inl (by simpa [stepWrites] using hmem)
      | mkOutputDir => exact Or.inl (by simpa [stepWrites] using hmem)
      | logCreatedDir => exact Or.inl (by simpa [stepWrites] using hmem)
      | logRetrieved s => exact Or.inl (by simpa [stepWrites] using hmem)
    · exact Or.inr ⟨j, List.mem_cons_of_mem _ hj⟩

/-- C9: whenever the trace of a collection run contains a manifest write
for document path `p`, a successful document-file write for the same
path `p` occurs strictly earlier in the trace: the manifest write is
reachable only after the document's JSON write succeeded. -/
theorem C9_manifest_implies_document (c : FCol) (pp : List String)
    (t₁ t₂ : List Event) (p : List String) (ns : List String)
    (h : process_collection c pp = t₁ ++ .writeMan p ns :: t₂) :
    ∃ j, Event.writeDoc p (some j) ∈ t₁ := by
  have hm : manOK [] (process_collection c pp) := manOK_collection c pp []
  rw [h] at hm
  rcases manOK_split t₁ [] t₂ p ns hm with hmem | hgood
  · simp at hmem
  · exact hgood

/-- Witness for C9 on a concrete one-document store with one
subcollection. -/
theorem C9_manifest_implies_document_witness :
    (process_collection (.mk "users" false (.cons (.mk "u1" true false false
        .nil (.cons (.mk "posts" false .nil) .nil)) .nil)) []
      = [.streamCol ["users"], .readDoc ["users", "u1"], .mkdirs ["users"],
         .writeDoc ["users", "u1"] (some .nil), .logSaved ["users", "u1"]]
        ++ .writeMan ["users", "u1"] ["posts"]
          :: [.streamCol ["users", "u1", "posts"]])
    ∧ ∃ j, Event.writeDoc ["users", "u1"] (some j) ∈
        [.streamCol ["users"], .readDoc ["users", "u1"], .mkdirs ["users"],
         .writeDoc ["users", "u1"] (some .nil), .logSaved ["users", "u1"]] :=
  ⟨rfl, C9_manifest_implies_document
    (.mk "users" (false) (.cons (.mk "u1" true false false
        .nil (.cons (.mk "posts" false .nil) .nil)) .nil)) []
    [.streamCol ["users"], .readDoc ["users", "u1"], .mkdirs ["users"],
     .writeDoc ["users", "u1"] (some .nil), .logSaved ["users", "u1"]]
    [.streamCol ["users", "u1", "posts"]] ["users", "u1"] ["posts"] rfl⟩

theorem writeEvents_append (a b : List Event) :
    writeEvents (a ++ b) = writeEvents a ++ writeEvents b := by
  simp [writeEvents, List.filter_append]

theorem writeKeys_append (a b : List Event) :
    writeKeys (a ++ b) = writeKeys a ++ writeKeys b := by
  simp [writeKeys, List.filterMap_append]

theorem writeEvents_retrieve (c : FCol) (pre : Bool) :
    writeEvents (retrieve_collection_with_subcollections c pre)
      = writeEvents (process_collection c []) := by
  cases pre <;>
    simp [retrieve_collection_with_subcollections, writeEvents, writeKey,
      List.filter_append]

theorem writeKeys_retrieve (c : FCol) (pre : Bool) :
    writeKeys (retrieve_collection_with_subcollections c pre)
      = writeKeys (process_collection c []) := by
  cases pre <;>
    simp [retrieve_collection_with_subcollections, writeKeys, writeKey,
      List.filterMap_append]

/-- For a run over documents that all exist, raise no errors, serialize
successfully and have no subcollections, the writes of the document loop
are exactly one document-file write per document, in order. -/
theorem flat_docs_writes (ds : FDocs) : ∀ (cp : List String),
    (∀ d ∈ ds.toList, d.getErr = false ∧ d.docExists = true ∧
      d.writeErr = false ∧ (encodeDict d.data).isSome = true ∧
      d.subcols = FCols.nil) →
    writeEvents (process_docs ds cp)
      = ds.toList.map (fun d => .writeDoc (cp ++ [d.id]) (encodeDict d.data))
    ∧ writeKeys (process_docs ds cp)
      = ds.toList.map (fun d => (cp ++ [d.id], false)) := by
  cases ds with
  | nil =>
    intro cp _
    simp [process_docs_nil, writeEvents, writeKeys, FDocs.toList]
  | cons d rest =>
    intro cp h
    have hd := h d (by simp [FDocs.toList])
    have hrest : ∀ x ∈ rest.toList, x.getErr = false ∧ x.docExists = true ∧
        x.writeErr = false ∧ (encodeDict x.data).isSome = true ∧
        x.subcols = FCols.nil := by
      intro x hx; exact h x (by simp [FDocs.toList, hx])
    have ih := flat_docs_writes rest cp hrest
    obtain ⟨hg, he, hw, hs, hn⟩ := hd
    obtain ⟨j, hj⟩ := Option.isSome_iff_exists.mp hs
    cases d with
    | mk i de ge we dt sc =>
      simp only [FDoc.getErr, FDoc.docExists, FDoc.writeErr, FDoc.data,
        FDoc.subcols, FDoc.id] at hg he hw hj hn ⊢
      subst hg he hw hn
      rw [process_docs_cons, writeEvents_append, writeKeys_append]
      have hw1 : writeEvents
          (process_document (FDoc.mk i true false false dt FCols.nil) cp)
          = [Event.writeDoc (cp ++ [i]) (encodeDict dt)] := by
        rw [process_document_eq]
        simp [doc_steps, hj, writeEvents, writeKey, get_all_subcollections,
          FCols.toList]
      have hk1 : writeKeys
          (process_document (FDoc.mk i true false false dt FCols.nil) cp)
          = [(cp ++ [i], false)] := by
        rw [process_document_eq]
        simp [doc_steps, hj, writeKeys, writeKey, get_all_subcollections,
          FCols.toList]
      constructor
      · rw [hw1, ih.1]
        simp [FDocs.toList, FDoc.id, FDoc.data]
      · rw [hk1, ih.2]
        simp [FDocs.toList, FDoc.id]

/-- C1: running the exporter on a collection of N documents with no
subcollections (all existing, no errors, all serializable) writes
exactly N files: one document-data file per document, in iteration
order, whose filesystem path is `<output>/<collection>/<docId>.json` and
whose content is that document's serialized field mapping; no manifest
file is written. -/
theorem C1_flat_collection_export (c : FCol) (pre : Bool) (base : String)
    (hs : c.streamErr = false)
    (hd : ∀ d ∈ c.docs.toList, d.getErr = false ∧ d.docExists = true ∧
      d.writeErr = false ∧ (encodeDict d.data).isSome = true ∧
      d.subcols = FCols.nil) :
    writeEvents (retrieve_collection_with_subcollections c pre)
      = c.docs.toList.map
          (fun d => .writeDoc [c.id, d.id] (encodeDict d.data))
    ∧ (writeEvents (retrieve_collection_with_subcollections c pre)).length
      = c.docs.toList.length
    ∧ fileNames base (retrieve_collection_with_subcollections c pre)
      = c.docs.toList.map
          (fun d => base ++ "/" ++ c.id ++ "/" ++ d.id ++ ".json")
    ∧ ∀ p ns, Event.writeMan p ns ∉
        retrieve_collection_with_subcollections c pre := by
  have hflat := flat_docs_writes c.docs [c.id] hd
  have hcol : writeEvents (process_collection c [])
        = writeEvents (process_docs c.docs [c.id])
      ∧ writeKeys (process_collection c [])
        = writeKeys (process_docs c.docs [c.id]) := by
    cases c with
    | mk i se ds =>
      simp only [FCol.streamErr] at hs
      subst hs
      rw [process_collection_eq]
      simp [col_steps, FCol.id, FCol.docs, writeEvents, writeKeys, writeKey]
  have hkeys : writeKeys (retrieve_collection_with_subcollections c pre)
      = c.docs.toList.map (fun d => ([c.id, d.id], false)) := by
    rw [writeKeys_retrieve, hcol.2, hflat.2]; simp
  refine ⟨?_, ?_, ?_, ?_⟩
  · rw [writeEvents_retrieve, hcol.1, hflat.1]; simp
  · rw [writeEvents_retrieve, hcol.1, hflat.1]; simp
  · rw [fileNames, hkeys, List.map_map]
    refine List.map_congr_left ?_
    intro d _
    simp [renderKey, docFilePath, joinPath, Function.comp]
  · intro p ns hmem
    have : (p, true) ∈ writeKeys (retrieve_collection_with_subcollections c pre) := by
      rw [writeKeys]
      exact List.mem_filterMap.mpr ⟨.writeMan p ns, hmem, rfl⟩
    rw [hkeys] at this
    rcases List.mem_map.mp this with ⟨d, _, hdk⟩
    exact Bool.true_eq_false.mp (congrArg Prod.snd hdk).symm

def demoDoc1 : FDoc :=
  .mk "u1" true false false (.cons "name" (.pystr "Ann") .nil) .nil

def demoDoc2 : FDoc := .mk "u2" true false false .nil .nil

def demoUsers : FCol := .mk "users" false (.cons demoDoc1 (.cons demoDoc2 .nil))

/-- Witness for C1 on a two-document collection without subcollections. -/
theorem C1_flat_collection_export_witness :
    (FCol.streamErr demoUsers = false)
    ∧ (∀ d ∈ (FCol.docs demoUsers).toList, d.getErr = false ∧
        d.docExists = true ∧ d.writeErr = false ∧
        (encodeDict d.data).isSome = true ∧ d.subcols = FCols.nil)
    ∧ (writeEvents (retrieve_collection_with_subcollections demoUsers false)
        = (FCol.docs demoUsers).toList.map
            (fun d => .writeDoc [FCol.id demoUsers, d.id] (encodeDict d.data))
      ∧ (writeEvents (retrieve_collection_with_subcollections demoUsers false)).length
        = (FCol.docs demoUsers).toList.length
      ∧ fileNames "output" (retrieve_collection_with_subcollections demoUsers false)
        = (FCol.docs demoUsers).toList.map
            (fun d => "output" ++ "/" ++ FCol.id demoUsers ++ "/" ++ d.id ++ ".json")
      ∧ ∀ p ns, Event.writeMan p ns ∉
          retrieve_collection_with_subcollections demoUsers false) :=
  ⟨rfl,
   by
    intro d hdm
    simp only [demoUsers, demoDoc1, demoDoc2, FCol.docs, FDocs.toList,
      List.mem_cons, List.not_mem_nil, or_false] at hdm
    rcases hdm with rfl | rfl <;>
      exact ⟨rfl, rfl, rfl, rfl, rfl⟩,
   C1_flat_collection_export demoUsers false "output" rfl
    (by
      intro d hdm
      simp only [demoUsers, demoDoc1, demoDoc2, FCol.docs, FDocs.toList,
        List.mem_cons, List.not_mem_nil, or_false] at hdm
      rcases hdm with rfl | rfl <;>
        exact ⟨rfl, rfl, rfl, rfl, rfl⟩)⟩

/-- The string contains no `'/'` character (true of every Firestore id:
ids are single path segments). -/
def noSlash (s : String) : Prop := ('/' : Char) ∉ s.data

instance noSlash_decidable (s : String) : Decidable (noSlash s) :=
  inferInstanceAs (Decidable (('/' : Char) ∉ s.data))

/-- The string ends with the suffix `"_subcollections"`. -/
def endsWithSub (s : String) : Prop := ∃ t, s = t ++ "_subcollections"

theorem not_endsWithSub_short {s : String} (h : s.length < 15) :
    ¬ endsWithSub s := by
  rintro ⟨t, rfl⟩
  rw [String.length_append] at h
  have h15 : ("_subcollections" : String).length = 15 := rfl
  omega

theorem str_ext {s t : String} (h : s.data = t.data) : s = t := by
  cases s; cases t; exact congrArg String.mk h

theorem append_right_cancel_str {a b c : String} (h : a ++ c = b ++ c) :
    a = b := by
  have hd : a.data ++ c.data = b.data ++ c.data := by
    rw [← String.data_append, ← String.data_append, h]
  exact str_ext (List.append_cancel_right hd)

theorem append_left_cancel_str {a b c : String} (h : a ++ b = a ++ c) :
    b = c := by
  have hd : a.data ++ b.data = a.data ++ c.data := by
    rw [← String.data_append, ← String.data_append, h]
  exact str_ext (List.append_cancel_left hd)

/-- Splitting a character list at the first separator: separator-free
heads and the tails agree. -/
theorem slash_split : ∀ (a b xs ys : List Char), ('/' : Char) ∉ a →
    ('/' : Char) ∉ b → a ++ '/' :: xs = b ++ '/' :: ys → a = b ∧ xs = ys := by
  intro a
  induction a with
  | nil =>
    intro b xs ys _ hb h
    cases b with
    | nil => simpa using h
    | cons c cs =>
      simp only [List.nil_append, List.cons_append, List.cons.injEq] at h
      obtain ⟨hc, -⟩ := h
      subst hc
      exact absurd (List.mem_cons_self _ _) hb
  | cons x a ih =>
    intro b xs ys ha hb h
    cases b with
    | nil =>
      simp only [List.cons_append, List.nil_append, List.cons.injEq] at h
      obtain ⟨hc, -⟩ := h
      subst hc
      exact absurd (List.mem_cons_self _ _) ha
    | cons y bs =>
      simp only [List.cons_append, List.cons.injEq] at h
      obtain ⟨hxy, h2⟩ := h
      subst hxy
      have ha' : ('/' : Char) ∉ a := fun hm => ha (List.mem_cons_of_mem _ hm)
      have hb' : ('/' : Char) ∉ bs := fun hm => hb (List.mem_cons_of_mem _ hm)
      obtain ⟨h3, h4⟩ := ih bs xs ys ha' hb' h2
      exact ⟨by rw [h3], h4⟩

/-- The `'/'`-join of a list of path segments, i.e. `doc_ref.path` as a
string (`'/'.join(segments)`). -/
def joinSegs : List String → String
  | [] => ""
  | [s] => s
  | s :: t :: rest => s ++ "/" ++ joinSegs (t :: rest)

theorem joinSegs_cons2_data (s t : String) (r : List String) :
    (joinSegs (s :: t :: r)).data = s.data ++ '/' :: (joinSegs (t :: r)).data := by
  show (s ++ "/" ++ joinSegs (t :: r)).data = _
  simp [String.data_append]

theorem joinPath_cons (base s : String) (rest : List String) :
    joinPath base (s :: rest) = joinPath (base ++ "/" ++ s) rest := rfl

/-- `os.path.join(base, *segs)` is `base + "/" + '/'.join(segs)` for a
nonempty segment list. -/
theorem joinPath_eq : ∀ (segs : List String) (base : String), segs ≠ [] →
    joinPath base segs = base ++ "/" ++ joinSegs segs := by
  intro segs
  induction segs with
  | nil => intro base h; exact absurd rfl h
  | cons s rest ih =>
    intro base _
    cases rest with
    | nil => simp [joinPath, joinSegs]
    | cons t r =>
      rw [joinPath_cons, ih (base ++ "/" ++ s) (by simp)]
      have hj : joinSegs (s :: t :: r) = s ++ "/" ++ joinSegs (t :: r) := rfl
      rw [hj]
      exact str_ext (by simp [String.data_append])

theorem joinSegs_single (s : String) : joinSegs [s] = s := rfl

/-- The `'/'`-join of slash-free segments is injective on nonempty
segment lists: distinct store paths have distinct `doc_ref.path`s. -/
theorem joinSegs_inj : ∀ (p q : List String), p ≠ [] → q ≠ [] →
    (∀ s ∈ p, noSlash s) → (∀ s ∈ q, noSlash s) →
    joinSegs p = joinSegs q → p = q := by
  intro p
  induction p with
  | nil => intro q h; exact absurd rfl h
  | cons s p' ih =>
    intro q _ hq hp hqs h
    cases q with
    | nil => exact absurd rfl hq
    | cons t q' =>
      cases p' with
      | nil =>
        cases q' with
        | nil => rw [joinSegs_single, joinSegs_single] at h; rw [h]
        | cons u q'' =>
          exfalso
          apply hp s (by simp)
          rw [show joinSegs [s] = s from rfl] at h
          rw [h]
          show ('/' : Char) ∈ (joinSegs (t :: u :: q'')).data
          rw [joinSegs_cons2_data]
          exact List.mem_append.mpr (Or.inr (List.mem_cons_self _ _))
      | cons s2 p'' =>
        cases q' with
        | nil =>
          exfalso
          apply hqs t (by simp)
          rw [show joinSegs [t] = t from rfl] at h
          rw [← h]
          show ('/' : Char) ∈ (joinSegs (s :: s2 :: p'')).data
          rw [joinSegs_cons2_data]
          exact List.mem_append.mpr (Or.inr (List.mem_cons_self _ _))
        | cons t2 q'' =>
          have hdata := congrArg String.data h
          rw [joinSegs_cons2_data, joinSegs_cons2_data] at hdata
          obtain ⟨h1, h2⟩ := slash_split _ _ _ _ (hp s (by simp))
            (hqs t (by simp)) hdata
          have hst : s = t := str_ext h1
          have hrest := ih (t2 :: q'') (by simp) (by simp)
            (fun x hx => hp x (List.mem_cons_of_mem _ hx))
            (fun x hx => hqs x (List.mem_cons_of_mem _ hx)) (str_ext h2)
          rw [hst, hrest]

/-- If the `'/'`-join of slash-free segments `p` equals that of `q`
extended by the manifest suffix, then the last segment of `p` ends with
the manifest suffix. -/
theorem joinSegs_sub : ∀ (p q : List String), p ≠ [] → q ≠ [] →
    (∀ s ∈ p, noSlash s) → (∀ s ∈ q, noSlash s) →
    joinSegs p = joinSegs q ++ "_subcollections" →
    ∃ l, p.getLast? = some l ∧ endsWithSub l := by
  intro p
  induction p with
  | nil => intro q h; exact absurd rfl h
  | cons s p' ih =>
    intro q _ hq hp hqs h
    cases q with
    | nil => exact absurd rfl hq
    | cons t q' =>
      cases p' with
      | nil =>
        cases q' with
        | nil =>
          rw [joinSegs_single, joinSegs_single] at h
          exact ⟨s, rfl, t, h⟩
        | cons u q'' =>
          exfalso
          apply hp s (by simp)
          rw [show joinSegs [s] = s from rfl] at h
          rw [h]
          show ('/' : Char) ∈ (joinSegs (t :: u :: q'') ++ "_subcollections").data
          rw [String.data_append, joinSegs_cons2_data]
          exact List.mem_append.mpr (Or.inl
            (List.mem_append.mpr (Or.inr (List.mem_cons_self _ _))))
      | cons s2 p'' =>
        cases q' with
        | nil =>
          exfalso
          have hslash : ('/' : Char) ∈ (joinSegs (s :: s2 :: p'')).data := by
            rw [joinSegs_cons2_data]
            exact List.mem_append.mpr (Or.inr (List.mem_cons_self _ _))
          rw [h] at hslash
          rw [joinSegs_single, String.data_append] at hslash
          rcases List.mem_append.mp hslash with hm | hm
          · exact hqs t (by simp) hm
          · exact absurd hm (by decide)
        | cons t2 q'' =>
          have hdata := congrArg String.data h
          rw [String.data_append, joinSegs_cons2_data, joinSegs_cons2_data,
            List.append_assoc, List.cons_append] at hdata
          obtain ⟨h1, h2⟩ := slash_split _ _ _ _ (hp s (by simp))
            (hqs t (by simp)) hdata
          have h2' : joinSegs (s2 :: p'') = joinSegs (t2 :: q'') ++ "_subcollections" :=
            str_ext (by rw [String.data_append]; exact h2)
          obtain ⟨l, hl, hsub⟩ := ih (t2 :: q'') (by simp) (by simp)
            (fun x hx => hp x (List.mem_cons_of_mem _ hx))
            (fun x hx => hqs x (List.mem_cons_of_mem _ hx)) h2'
          exact ⟨l, by rw [List.getLast?_cons_cons]; exact hl, hsub⟩

/-- A write key whose path is a real store path: nonempty, slash-free
segments, and (for a document-data file) a last segment — the document
id — that does not end in the manifest suffix. -/
def goodKey (k : List String × Bool) : Prop :=
  k.1 ≠ [] ∧ (∀ s ∈ k.1, noSlash s) ∧
  (k.2 = false → ∀ l, k.1.getLast? = some l → ¬ endsWithSub l)

/-- A document-data file path can coincide with a manifest file path
only if the document's id ends in `"_subcollections"`. -/
theorem docman_contra {base : String} {p q : List String}
    (hp1 : p ≠ []) (hq1 : q ≠ [])
    (hp2 : ∀ s ∈ p, noSlash s) (hq2 : ∀ s ∈ q, noSlash s)
    (hgood : ∀ l, p.getLast? = some l → ¬ endsWithSub l)
    (h : docFilePath base p = manFilePath base q) : False := by
  unfold docFilePath manFilePath at h
  have hsplit : ("_subcollections.json" : String)
      = "_subcollections" ++ ".json" := rfl
  rw [hsplit, ← String.append_assoc] at h
  have h2 : joinPath base p = joinPath base q ++ "_subcollections" :=
    append_right_cancel_str h
  rw [joinPath_eq p base hp1, joinPath_eq q base hq1,
    String.append_assoc (base ++ "/") (joinSegs q) "_subcollections"] at h2
  have h3 : joinSegs p = joinSegs q ++ "_subcollections" :=
    append_left_cancel_str h2
  obtain ⟨l, hl, hsub⟩ := joinSegs_sub p q hp1 hq1 hp2 hq2 h3
  exact hgood l hl hsub

/-- On good keys, the filesystem path of a write determines its store
path and kind: no two distinct exported files share a path. -/
theorem renderKey_inj (base : String) (k1 k2 : List String × Bool)
    (h1 : goodKey k1) (h2 : goodKey k2)
    (h : renderKey base k1 = renderKey base k2) : k1 = k2 := by
  obtain ⟨p, b1⟩ := k1
  obtain ⟨q, b2⟩ := k2
  obtain ⟨hp1, hp2, hp3⟩ := h1
  obtain ⟨hq1, hq2, hq3⟩ := h2
  cases b1 <;> cases b2
  · have h' : docFilePath base p = docFilePath base q := by
      simpa [renderKey] using h
    unfold docFilePath at h'
    have hj : joinPath base p = joinPath base q := append_right_cancel_str h'
    rw [joinPath_eq p base hp1, joinPath_eq q base hq1] at hj
    rw [joinSegs_inj p q hp1 hq1 hp2 hq2 (append_left_cancel_str hj)]
  · have h' : docFilePath base p = manFilePath base q := by
      simpa [renderKey] using h
    exact (docman_contra hp1 hq1 hp2 hq2 (hp3 rfl) h').elim
  · have h' : docFilePath base q = manFilePath base p := by
      simpa [renderKey] using h.symm
    exact (docman_contra hq1 hp1 hq2 hp2 (hq3 rfl) h').elim
  · have h' : manFilePath base p = manFilePath base q := by
      simpa [renderKey] using h
    unfold manFilePath at h'
    have hj : joinPath base p = joinPath base q := append_right_cancel_str h'
    rw [joinPath_eq p base hp1, joinPath_eq q base hq1] at hj
    rw [joinSegs_inj p q hp1 hq1 hp2 hq2 (append_left_cancel_str hj)]

/-- C7: a document's export file path is the fixed function
`docFilePath` of its store path (the path the `writeDoc` event renders
to), and it is injective: two documents with distinct store paths (made
of slash-free segments, as the store guarantees) get distinct export
file paths. -/
theorem C7_docFilePath_injective (base : String) (p q : List String)
    (hp : p ≠ []) (hq : q ≠ []) (hps : ∀ s ∈ p, noSlash s)
    (hqs : ∀ s ∈ q, noSlash s) (hne : p ≠ q) :
    renderKey base (p, false) = docFilePath base p
    ∧ docFilePath base p ≠ docFilePath base q := by
  refine ⟨rfl, ?_⟩
  intro h
  apply hne
  unfold docFilePath at h
  have hj : joinPath base p = joinPath base q := append_right_cancel_str h
  rw [joinPath_eq p base hp, joinPath_eq q base hq] at hj
  exact joinSegs_inj p q hp hq hps hqs (append_left_cancel_str hj)

/-- Witness for C7 on two concrete sibling document paths. -/
theorem C7_docFilePath_injective_witness :
    ((["users", "u1"] : List String) ≠ [])
    ∧ ((["users", "u2"] : List String) ≠ [])
    ∧ (∀ s ∈ (["users", "u1"] : List String), noSlash s)
    ∧ (∀ s ∈ (["users", "u2"] : List String), noSlash s)
    ∧ (["users", "u1"] : List String) ≠ ["users", "u2"]
    ∧ (renderKey "out" (["users", "u1"], false)
        = docFilePath "out" ["users", "u1"]
      ∧ docFilePath "out" ["users", "u1"] ≠ docFilePath "out" ["users", "u2"]) :=
  ⟨by decide, by decide, by decide, by decide, by decide,
   C7_docFilePath_injective "out" ["users", "u1"] ["users", "u2"]
     (by decide) (by decide) (by decide) (by decide) (by decide)⟩

/-- The ids of the documents of a collection, in stream order. -/
def docIds (ds : FDocs) : List String :=
  ds.toList.map FDoc.id

mutual
/-- Store-side well-formedness of a document, as Firestore guarantees it
(plus the manifest-suffix restriction on document ids): the id is a
single slash-free segment not ending in `"_subcollections"`,
subcollection names are distinct, and the subcollections are themselves
well formed. -/
def validDoc : FDoc → Prop
  | .mk i _ _ _ _ subs =>
      noSlash i ∧ ¬ endsWithSub i ∧
      (get_all_subcollections subs).Nodup ∧ validCols subs
/-- Well-formedness of a document list. -/
def validDocs : FDocs → Prop
  | .nil => True
  | .cons d rest => validDoc d ∧ validDocs rest
/-- Store-side well-formedness of a collection: slash-free id, distinct
document ids, well-formed documents. -/
def validCol : FCol → Prop
  | .mk i _ docs => noSlash i ∧ (docIds docs).Nodup ∧ validDocs docs
/-- Well-formedness of a collection list. -/
def validCols : FCols → Prop
  | .nil => True
  | .cons c rest => validCol c ∧ validCols rest
end

theorem validDoc_eq (i : String) (de ge we : Bool) (dt : PyDict) (sc : FCols) :
    validDoc (.mk i de ge we dt sc) =
      (noSlash i ∧ ¬ endsWithSub i ∧
       (get_all_subcollections sc).Nodup ∧ validCols sc) := by
  conv_lhs => rw [validDoc.eq_def]

theorem validDocs_nil : validDocs .nil = True := by
  rw [validDocs.eq_def]

theorem validDocs_cons (d : FDoc) (rest : FDocs) :
    validDocs (.cons d rest) = (validDoc d ∧ validDocs rest) := by
  rw [validDocs.eq_def]

theorem validCol_eq (i : String) (se : Bool) (ds : FDocs) :
    validCol (.mk i se ds) =
      (noSlash i ∧ (docIds ds).Nodup ∧ validDocs ds) := by
  conv_lhs => rw [validCol.eq_def]

theorem validCols_nil : validCols .nil = True := by
  rw [validCols.eq_def]

theorem validCols_cons (c : FCol) (rest : FCols) :
    validCols (.cons c rest) = (validCol c ∧ validCols rest) := by
  rw [validCols.eq_def]

/-- `q` is strictly inside the subtree of store path `p`. -/
def strictUnder (p q : List String) : Prop := underPath p q ∧ q ≠ p

/-- The store path a document read or document write addresses. -/
def rwPath : Event → Option (List String)
  | .readDoc p => some p
  | .writeDoc p _ => some p
  | _ => none

/-- Ordering relation between an earlier event `a` and a later event
`b`: if `b` reads or writes a document at path `p`, then `a` is not an
event of `p`'s strict subtree — documents are read and written before
any event of their subcollections. -/
def preVisit (a b : Event) : Prop :=
  ∀ p : List String,
    ((∃ ct, b = Event.writeDoc p ct) ∨ b = Event.readDoc p) →
    ¬ strictUnder p a.path

theorem underPath_eq_of_length {p q : List String} (h : underPath p q)
    (hl : q.length ≤ p.length) : q = p := by
  obtain ⟨r, rfl⟩ := h
  rw [List.length_append] at hl
  have hr : r = [] := List.length_eq_zero.mp (by omega)
  rw [hr, List.append_nil]

theorem not_strictUnder_short {p q : List String} (h : q.length < p.length) :
    ¬ strictUnder p q := by
  rintro ⟨hu, -⟩
  exact absurd (underPath_length hu) (by omega)

theorem preVisit_vacuous {a b : Event} (h : rwPath b = none) : preVisit a b := by
  intro p hp
  rcases hp with ⟨ct, rfl⟩ | rfl <;> simp [rwPath] at h

theorem preVisit_rwPath {b : Event} {p : List String}
    (hp : (∃ ct, b = Event.writeDoc p ct) ∨ b = Event.readDoc p) :
    rwPath b = some p := by
  rcases hp with ⟨ct, rfl⟩ | rfl <;> rfl

theorem preVisit_same_level {a b : Event} {p₀ : List String}
    (ha : a.path.length ≤ p₀.length) (hb : rwPath b = some p₀) :
    preVisit a b := by
  intro p hp
  have hpp : p = p₀ := by
    have := (preVisit_rwPath hp).symm.trans hb
    simpa using this
  subst hpp
  rintro ⟨hu, hne⟩
  exact hne (underPath_eq_of_length hu ha)

theorem preVisit_into_deep {a : Event} {T : List Event} {n : Nat}
    (ha : a.path.length ≤ n)
    (hT : ∀ b ∈ T, ∀ p, rwPath b = some p → n + 1 ≤ p.length) :
    ∀ b ∈ T, preVisit a b := by
  intro b hb p hp
  have hlen := hT b hb p (preVisit_rwPath hp)
  exact not_strictUnder_short (by omega)

theorem preVisit_cross {a b : Event} {dp : List String} {x y : String}
    (hxy : x ≠ y) (ha : underPath (dp ++ [x]) a.path)
    (hb : ∀ p, rwPath b = some p → underPath (dp ++ [y]) p) :
    preVisit a b := by
  intro p hp
  rintro ⟨hu, -⟩
  exact underPath_disjoint hxy ha
    (underPath_trans (hb p (preVisit_rwPath hp)) hu)

/-- Exhaustive case analysis of a document's trace: error at `get`,
missing document, error at `open`, `TypeError` during the dump, clean
save without subcollections, or clean save with manifest and recursion. -/
theorem process_document_cases (d : FDoc) (cp : List String) :
    (process_document d cp = [.logErrDoc (cp ++ [d.id])])
    ∨ (process_document d cp
        = [.readDoc (cp ++ [d.id]), .logMissing (cp ++ [d.id])])
    ∨ (process_document d cp
        = [.readDoc (cp ++ [d.id]), .mkdirs cp, .logErrDoc (cp ++ [d.id])])
    ∨ (process_document d cp
        = [.readDoc (cp ++ [d.id]), .mkdirs cp,
           .writeDoc (cp ++ [d.id]) none, .logErrDoc (cp ++ [d.id])])
    ∨ (∃ j, encodeDict d.data = some j ∧ d.subcols = .nil
        ∧ process_document d cp
          = [.readDoc (cp ++ [d.id]), .mkdirs cp,
             .writeDoc (cp ++ [d.id]) (some j), .logSaved (cp ++ [d.id])])
    ∨ (∃ j, encodeDict d.data = some j ∧ process_document d cp
        = [.readDoc (cp ++ [d.id]), .mkdirs cp,
           .writeDoc (cp ++ [d.id]) (some j), .logSaved (cp ++ [d.id]),
           .writeMan (cp ++ [d.id]) (get_all_subcollections d.subcols)]
          ++ process_cols d.subcols (cp ++ [d.id])) := by
  cases d with
  | mk i de ge we dt sc =>
    rw [process_document_eq]
    simp only [FDoc.id, FDoc.data, FDoc.subcols]
    cases ge with
    | true => exact Or.inl (by simp [doc_steps])
    | false =>
      cases de with
      | false => exact Or.inr (Or.inl (by simp [doc_steps]))
      | true =>
        cases we with
        | true => exact Or.inr (Or.inr (Or.inl (by simp [doc_steps])))
        | false =>
          rcases henc : encodeDict dt with _ | j
          · exact Or.inr (Or.inr (Or.inr (Or.inl (by simp [doc_steps]))))
          · cases sc with
            | nil =>
              refine Or.inr (Or.inr (Or.inr (Or.inr (Or.inl ⟨j, rfl, rfl, ?_⟩))))
              simp [doc_steps, get_all_subcollections, FCols.toList]
            | cons c0 r0 =>
              refine Or.inr (Or.inr (Or.inr (Or.inr (Or.inr ⟨j, rfl, ?_⟩))))
              simp [doc_steps, get_all_subcollections, FCols.toList]

/-- The two possible traces of a collection. -/
theorem process_collection_cases (c : FCol) (pp : List String) :
    (process_collection c pp = [.logErrCol (pp ++ [c.id])])
    ∨ (process_collection c pp
        = .streamCol (pp ++ [c.id]) :: process_docs c.docs (pp ++ [c.id])) := by
  cases c with
  | mk i se ds =>
    rw [process_collection_eq]
    simp only [FCol.id, FCol.docs]
    cases se with
    | true => exact Or.inl (by simp [col_steps])
    | false => exact Or.inr (by simp [col_steps])

mutual
theorem writesUnder_document (d : FDoc) (cp : List String) :
    ∀ k ∈ writeKeys (process_document d cp), underPath (cp ++ [d.id]) k.1 := by
  cases d with
  | mk i de ge we dt sc =>
    have hcase := process_document_cases (.mk i de ge we dt sc) cp
    simp only [FDoc.id, FDoc.data, FDoc.subcols] at hcase ⊢
    intro k hk
    rcases hcase with h | h | h | h | ⟨j, hj, hnil, h⟩ |
      ⟨j, hj, h⟩ <;> rw [h] at hk
    · simp [writeKeys, writeKey] at hk
    · simp [writeKeys, writeKey] at hk
    · simp [writeKeys, writeKey] at hk
    · simp [writeKeys, writeKey] at hk
      rw [hk]
      exact underPath_rfl _
    · simp [writeKeys, writeKey] at hk
      rw [hk]
      exact underPath_rfl _
    · rw [writeKeys_append] at hk
      rcases List.mem_append.mp hk with hk1 | hk2
      · simp [writeKeys, writeKey] at hk1
        rcases hk1 with h1 | h1 <;> (rw [h1]; exact underPath_rfl _)
      · obtain ⟨c, -, hu⟩ := writesUnder_cols sc (cp ++ [i]) k hk2
        exact underPath_trans (underPath_app _ _) hu
theorem writesUnder_cols (cs : FCols) (dp : List String) :
    ∀ k ∈ writeKeys (process_cols cs dp),
      ∃ c ∈ cs.toList, underPath (dp ++ [c.id]) k.1 := by
  intro k hk
  cases cs with
  | nil => rw [process_cols_nil] at hk; simp [writeKeys] at hk
  | cons c rest =>
    rw [process_cols_cons, writeKeys_append] at hk
    rcases List.mem_append.mp hk with hk | hk
    · exact ⟨c, by simp [FCols.toList], writesUnder_collection c dp k hk⟩
    · obtain ⟨c', hc', hu⟩ := writesUnder_cols rest dp k hk
      exact ⟨c', by simp [FCols.toList, hc'], hu⟩
theorem writesUnder_collection (c : FCol) (pp : List String) :
    ∀ k ∈ writeKeys (process_collection c pp), underPath (pp ++ [c.id]) k.1 := by
  cases c with
  | mk i se ds =>
    have hcase := process_collection_cases (.mk i se ds) pp
    simp only [FCol.id, FCol.docs] at hcase ⊢
    intro k hk
    rcases hcase with h | h <;> rw [h] at hk
    · simp [writeKeys, writeKey] at hk
    · have hk' : k ∈ writeKeys (process_docs ds (pp ++ [i])) := by
        simpa [writeKeys, writeKey] using hk
      obtain ⟨d, -, hu⟩ := writesUnder_docs ds (pp ++ [i]) k hk'
      exact underPath_trans (underPath_app _ _) hu
theorem writesUnder_docs (ds : FDocs) (cp : List String) :
    ∀ k ∈ writeKeys (process_docs ds cp),
      ∃ d ∈ ds.toList, underPath (cp ++ [d.id]) k.1 := by
  intro k hk
  cases ds with
  | nil => rw [process_docs_nil] at hk; simp [writeKeys] at hk
  | cons d rest =>
    rw [process_docs_cons, writeKeys_append] at hk
    rcases List.mem_append.mp hk with hk | hk
    · exact ⟨d, by simp [FDocs.toList], writesUnder_document d cp k hk⟩
    · obtain ⟨d', hd', hu⟩ := writesUnder_docs rest cp k hk
      exact ⟨d', by simp [FDocs.toList, hd'], hu⟩
end

mutual
theorem nodupKeys_document (d : FDoc) (cp : List String) (hv : validDoc d) :
    (writeKeys (process_document d cp)).Nodup := by
  cases d with
  | mk i de ge we dt sc =>
    rw [validDoc_eq] at hv
    obtain ⟨-, -, hids, hsubv⟩ := hv
    have hcase := process_document_cases (.mk i de ge we dt sc) cp
    simp only [FDoc.id, FDoc.data, FDoc.subcols] at hcase
    rcases hcase with h | h | h | h | ⟨j, hj, hnil, h⟩ | ⟨j, hj, h⟩ <;> rw [h]
    · simp [writeKeys, writeKey]
    · simp [writeKeys, writeKey]
    · simp [writeKeys, writeKey]
    · simp [writeKeys, writeKey]
    · simp [writeKeys, writeKey]
    · rw [writeKeys_append]
      have h5 : writeKeys [Event.readDoc (cp ++ [i]), Event.mkdirs cp,
          Event.writeDoc (cp ++ [i]) (some j), Event.logSaved (cp ++ [i]),
          Event.writeMan (cp ++ [i]) (get_all_subcollections sc)]
          = [(cp ++ [i], false), (cp ++ [i], true)] := by
        simp [writeKeys, writeKey]
      rw [h5]
      refine List.Nodup.append ?_ (nodupKeys_cols sc (cp ++ [i]) hsubv hids) ?_
      · simp
      · intro x hx hx2
        obtain ⟨c, -, hu⟩ := writesUnder_cols sc (cp ++ [i]) x hx2
        have hlen := underPath_one_length hu
        rcases (by simpa using hx :
            x = (cp ++ [i], false) ∨ x = (cp ++ [i], true)) with rfl | rfl <;>
          simp at hlen
theorem nodupKeys_cols (cs : FCols) (dp : List String) (hv : validCols cs)
    (hids : (get_all_subcollections cs).Nodup) :
    (writeKeys (process_cols cs dp)).Nodup := by
  cases cs with
  | nil => rw [process_cols_nil]; simp [writeKeys]
  | cons c rest =>
    rw [validCols_cons] at hv
    have hids' : get_all_subcollections (.cons c rest)
        = c.id :: get_all_subcollections rest := by
      simp [get_all_subcollections, FCols.toList]
    rw [hids'] at hids
    rw [process_cols_cons, writeKeys_append]
    refine List.Nodup.append (nodupKeys_collection c dp hv.1)
      (nodupKeys_cols rest dp hv.2 (List.nodup_cons.mp hids).2) ?_
    intro x hx hx2
    have hu1 := writesUnder_collection c dp x hx
    obtain ⟨c', hc', hu2⟩ := writesUnder_cols rest dp x hx2
    have hne : c.id ≠ c'.id := by
      intro heq
      apply (List.nodup_cons.mp hids).1
      rw [heq]
      exact List.mem_map.mpr ⟨c', hc', rfl⟩
    exact underPath_disjoint hne hu1 hu2
theorem nodupKeys_collection (c : FCol) (pp : List String) (hv : validCol c) :
    (writeKeys (process_collection c pp)).Nodup := by
  cases c with
  | mk i se ds =>
    rw [validCol_eq] at hv
    have hcase := process_collection_cases (.mk i se ds) pp
    simp only [FCol.id, FCol.docs] at hcase
    rcases hcase with h | h <;> rw [h]
    · simp [writeKeys, writeKey]
    · have hstep : writeKeys (Event.streamCol (pp ++ [i])
          :: process_docs ds (pp ++ [i]))
          = writeKeys (process_docs ds (pp ++ [i])) := by
        simp [writeKeys, writeKey]
      rw [hstep]
      exact nodupKeys_docs ds (pp ++ [i]) hv.2.2 hv.2.1
theorem nodupKeys_docs (ds : FDocs) (cp : List String) (hv : validDocs ds)
    (hids : (docIds ds).Nodup) :
    (writeKeys (process_docs ds cp)).Nodup := by
  cases ds with
  | nil => rw [process_docs_nil]; simp [writeKeys]
  | cons d rest =>
    rw [validDocs_cons] at hv
    have hids' : docIds (.cons d rest) = d.id :: docIds rest := by
      simp [docIds, FDocs.toList]
    rw [hids'] at hids
    rw [process_docs_cons, writeKeys_append]
    refine List.Nodup.append (nodupKeys_document d cp hv.1)
      (nodupKeys_docs rest cp hv.2 (List.nodup_cons.mp hids).2) ?_
    intro x hx hx2
    have hu1 := writesUnder_document d cp x hx
    obtain ⟨d', hd', hu2⟩ := writesUnder_docs rest cp x hx2
    have hne : d.id ≠ d'.id := by
      intro heq
      apply (List.nodup_cons.mp hids).1
      rw [heq]
      exact List.mem_map.mpr ⟨d', hd', rfl⟩
    exact underPath_disjoint hne hu1 hu2
end

mutual
theorem goodKeys_document (d : FDoc) (cp : List String) (hv : validDoc d)
    (hcp : ∀ s ∈ cp, noSlash s) :
    ∀ k ∈ writeKeys (process_document d cp), goodKey k := by
  cases d with
  | mk i de ge we dt sc =>
    rw [validDoc_eq] at hv
    obtain ⟨hslash, hsuffix, -, hsubv⟩ := hv
    have hseg : ∀ s ∈ cp ++ [i], noSlash s := by
      intro s hs
      rcases List.mem_append.mp hs with hs | hs
      · exact hcp s hs
      · rw [List.mem_singleton.mp hs]; exact hslash
    have hgooddoc : goodKey (cp ++ [i], false) := by
      refine ⟨by simp, hseg, ?_⟩
      intro _ l hl
      rw [List.getLast?_concat] at hl
      rw [← Option.some.inj hl]
      exact hsuffix
    have hgoodman : goodKey (cp ++ [i], true) := by
      refine ⟨by simp, hseg, ?_⟩
      intro h
      simp at h
    have hcase := process_document_cases (.mk i de ge we dt sc) cp
    simp only [FDoc.id, FDoc.data, FDoc.subcols] at hcase
    intro k hk
    rcases hcase with h | h | h | h | ⟨j, hj, hnil, h⟩ | ⟨j, hj, h⟩ <;>
      rw [h] at hk
    · simp [writeKeys, writeKey] at hk
    · simp [writeKeys, writeKey] at hk
    · simp [writeKeys, writeKey] at hk
    · simp [writeKeys, writeKey] at hk
      rw [hk]; exact hgooddoc
    · simp [writeKeys, writeKey] at hk
      rw [hk]; exact hgooddoc
    · rw [writeKeys_append] at hk
      rcases List.mem_append.mp hk with hk1 | hk2
      · simp [writeKeys, writeKey] at hk1
        rcases hk1 with h1 | h1
        · rw [h1]; exact hgooddoc
        · rw [h1]; exact hgoodman
      · exact goodKeys_cols sc (cp ++ [i]) hsubv hseg k hk2
theorem goodKeys_cols (cs : FCols) (dp : List String) (hv : validCols cs)
    (hdp : ∀ s ∈ dp, noSlash s) :
    ∀ k ∈ writeKeys (process_cols cs dp), goodKey k := by
  cases cs with
  | nil =>
    intro k hk
    rw [process_cols_nil] at hk; simp [writeKeys] at hk
  | cons c rest =>
    rw [validCols_cons] at hv
    intro k hk
    rw [process_cols_cons, writeKeys_append] at hk
    rcases List.mem_append.mp hk with hk | hk
    · exact goodKeys_collection c dp hv.1 hdp k hk
    · exact goodKeys_cols rest dp hv.2 hdp k hk
theorem goodKeys_collection (c : FCol) (pp : List String) (hv : validCol c)
    (hpp : ∀ s ∈ pp, noSlash s) :
    ∀ k ∈ writeKeys (process_collection c pp), goodKey k := by
  cases c with
  | mk i se ds =>
    rw [validCol_eq] at hv
    obtain ⟨hslash, -, hdv⟩ := hv
    have hseg : ∀ s ∈ pp ++ [i], noSlash s := by
      intro s hs
      rcases List.mem_append.mp hs with hs | hs
      · exact hpp s hs
      · rw [List.mem_singleton.mp hs]; exact hslash
    have hcase := process_collection_cases (.mk i se ds) pp
    simp only [FCol.id, FCol.docs] at hcase
    intro k hk
    rcases hcase with h | h <;> rw [h] at hk
    · simp [writeKeys, writeKey] at hk
    · have hk' : k ∈ writeKeys (process_docs ds (pp ++ [i])) := by
        simpa [writeKeys, writeKey] using hk
      exact goodKeys_docs ds (pp ++ [i]) hdv hseg k hk'
theorem goodKeys_docs (ds : FDocs) (cp : List String) (hv : validDocs ds)
    (hcp : ∀ s ∈ cp, noSlash s) :
    ∀ k ∈ writeKeys (process_docs ds cp), goodKey k := by
  cases ds with
  | nil =>
    intro k hk
    rw [process_docs_nil] at hk; simp [writeKeys] at hk
  | cons d rest =>
    rw [validDocs_cons] at hv
    intro k hk
    rw [process_docs_cons, writeKeys_append] at hk
    rcases List.mem_append.mp hk with hk | hk
    · exact goodKeys_document d cp hv.1 hcp k hk
    · exact goodKeys_docs rest cp hv.2 hcp k hk
end

theorem rwPath_path {e : Event} {p : List String} (h : rwPath e = some p) :
    e.path = p := by
  cases e <;> simp [rwPath] at h <;> simp [Event.path, h]

mutual
theorem pathsUnder_document (d : FDoc) (cp : List String) :
    ∀ e ∈ process_document d cp,
      (e.path = cp ∧ rwPath e = none) ∨ underPath (cp ++ [d.id]) e.path := by
  cases d with
  | mk i de ge we dt sc =>
    have hcase := process_document_cases (.mk i de ge we dt sc) cp
    simp only [FDoc.id, FDoc.data, FDoc.subcols] at hcase ⊢
    intro e he
    rcases hcase with h | h | h | h | ⟨j, hj, hnil, h⟩ | ⟨j, hj, h⟩ <;>
      rw [h] at he
    · simp only [List.mem_singleton] at he
      subst he
      exact Or.inr (underPath_rfl _)
    · simp only [List.mem_cons, List.not_mem_nil, or_false] at he
      rcases he with rfl | rfl <;> exact Or.inr (underPath_rfl _)
    · simp only [List.mem_cons, List.not_mem_nil, or_false] at he
      rcases he with rfl | rfl | rfl
      · exact Or.inr (underPath_rfl _)
      · exact Or.inl ⟨rfl, rfl⟩
      · exact Or.inr (underPath_rfl _)
    · simp only [List.mem_cons, List.not_mem_nil, or_false] at he
      rcases he with rfl | rfl | rfl | rfl
      · exact Or.inr (underPath_rfl _)
      · exact Or.inl ⟨rfl, rfl⟩
      · exact Or.inr (underPath_rfl _)
      · exact Or.inr (underPath_rfl _)
    · simp only [List.mem_cons, List.not_mem_nil, or_false] at he
      rcases he with rfl | rfl | rfl | rfl
      · exact Or.inr (underPath_rfl _)
      · exact Or.inl ⟨rfl, rfl⟩
      · exact Or.inr (underPath_rfl _)
      · exact Or.inr (underPath_rfl _)
    · rw [List.mem_append] at he
      rcases he with he | he
      · simp only [List.mem_cons, List.not_mem_nil, or_false] at he
        rcases he with rfl | rfl | rfl | rfl | rfl
        · exact Or.inr (underPath_rfl _)
        · exact Or.inl ⟨rfl, rfl⟩
        · exact Or.inr (underPath_rfl _)
        · exact Or.inr (underPath_rfl _)
        · exact Or.inr (underPath_rfl _)
      · obtain ⟨c, -, hu⟩ := pathsUnder_cols sc (cp ++ [i]) e he
        exact Or.inr (underPath_trans (underPath_app _ _) hu)
theorem pathsUnder_cols (cs : FCols) (dp : List String) :
    ∀ e ∈ process_cols cs dp,
      ∃ c ∈ cs.toList, underPath (dp ++ [c.id]) e.path := by
  cases cs with
  | nil =>
    intro e he
    rw [process_cols_nil] at he
    simp at he
  | cons c rest =>
    intro e he
    rw [process_cols_cons, List.mem_append] at he
    rcases he with he | he
    · exact ⟨c, by simp [FCols.toList], pathsUnder_collection c dp e he⟩
    · obtain ⟨c', hc', hu⟩ := pathsUnder_cols rest dp e he
      exact ⟨c', by simp [FCols.toList, hc'], hu⟩
theorem pathsUnder_collection (c : FCol) (pp : List String) :
    ∀ e ∈ process_collection c pp, underPath (pp ++ [c.id]) e.path := by
  cases c with
  | mk i se ds =>
    have hcase := process_collection_cases (.mk i se ds) pp
    simp only [FCol.id, FCol.docs] at hcase ⊢
    intro e he
    rcases hcase with h | h <;> rw [h] at he
    · simp only [List.mem_singleton] at he
      subst he
      exact underPath_rfl _
    · simp only [List.mem_cons] at he
      rcases he with rfl | he
      · exact underPath_rfl _
      · rcases pathsUnder_docs ds (pp ++ [i]) e he with ⟨hpath, -⟩ | ⟨d, -, hu⟩
        · rw [hpath]; exact underPath_rfl _
        · exact underPath_trans (underPath_app _ _) hu
theorem pathsUnder_docs (ds : FDocs) (cp : List String) :
    ∀ e ∈ process_docs ds cp,
      (e.path = cp ∧ rwPath e = none)
      ∨ ∃ d ∈ ds.toList, underPath (cp ++ [d.id]) e.path := by
  cases ds with
  | nil =>
    intro e he
    rw [process_docs_nil] at he
    simp at he
  | cons d rest =>
    intro e he
    rw [process_docs_cons, List.mem_append] at he
    rcases he with he | he
    · rcases pathsUnder_document d cp e he with hl | hu
      · exact Or.inl hl
      · exact Or.inr ⟨d, by simp [FDocs.toList], hu⟩
    · rcases pathsUnder_docs rest cp e he with hl | ⟨d', hd', hu⟩
      · exact Or.inl hl
      · exact Or.inr ⟨d', by simp [FDocs.toList, hd'], hu⟩
end

mutual
theorem ord_document (d : FDoc) (cp : List String) (hv : validDoc d) :
    (process_document d cp).Pairwise preVisit := by
  cases d with
  | mk i de ge we dt sc =>
    rw [validDoc_eq] at hv
    obtain ⟨-, -, hids, hsubv⟩ := hv
    have hcase := process_document_cases (.mk i de ge we dt sc) cp
    simp only [FDoc.id, FDoc.data, FDoc.subcols] at hcase
    have hdeep : ∀ b ∈ process_cols sc (cp ++ [i]), ∀ p, rwPath b = some p →
        (cp ++ [i]).length + 1 ≤ p.length := by
      intro b hb p hp
      obtain ⟨c, -, hu⟩ := pathsUnder_cols sc (cp ++ [i]) b hb
      rw [rwPath_path hp] at hu
      exact underPath_one_length hu
    have hmk : (Event.mkdirs cp).path.length ≤ (cp ++ [i]).length := by
      simp only [Event.path]
      rw [List.length_append]
      exact Nat.le_add_right _ _
    rcases hcase with h | h | h | h | ⟨j, hj, hnil, h⟩ | ⟨j, hj, h⟩ <;> rw [h]
    · simp [List.pairwise_singleton]
    · refine List.Pairwise.cons ?_ (by simp [List.pairwise_singleton])
      intro b hb
      simp only [List.mem_singleton] at hb
      subst hb
      exact preVisit_vacuous rfl
    · refine List.Pairwise.cons ?_ (List.Pairwise.cons ?_
        (by simp [List.pairwise_singleton]))
      · intro b hb
        simp only [List.mem_cons, List.not_mem_nil, or_false] at hb
        rcases hb with rfl | rfl <;> exact preVisit_vacuous rfl
      · intro b hb
        simp only [List.mem_singleton] at hb
        subst hb
        exact preVisit_vacuous rfl
    · refine List.Pairwise.cons ?_ (List.Pairwise.cons ?_
        (List.Pairwise.cons ?_ (by simp [List.pairwise_singleton])))
      · intro b hb
        simp only [List.mem_cons, List.not_mem_nil, or_false] at hb
        rcases hb with rfl | rfl | rfl
        · exact preVisit_vacuous rfl
        · exact preVisit_same_level (Nat.le_refl _) rfl
        · exact preVisit_vacuous rfl
      · intro b hb
        simp only [List.mem_cons, List.not_mem_nil, or_false] at hb
        rcases hb with rfl | rfl
        · exact preVisit_same_level hmk rfl
        · exact preVisit_vacuous rfl
      · intro b hb
        simp only [List.mem_singleton] at hb
        subst hb
        exact preVisit_vacuous rfl
    · refine List.Pairwise.cons ?_ (List.Pairwise.cons ?_
        (List.Pairwise.cons ?_ (by simp [List.pairwise_singleton])))
      · intro b hb
        simp only [List.mem_cons, List.not_mem_nil, or_false] at hb
        rcases hb with rfl | rfl | rfl
        · exact preVisit_vacuous rfl
        · exact preVisit_same_level (Nat.le_refl _) rfl
        · exact preVisit_vacuous rfl
      · intro b hb
        simp only [List.mem_cons, List.not_mem_nil, or_false] at hb
        rcases hb with rfl | rfl
        · exact preVisit_same_level hmk rfl
        · exact preVisit_vacuous rfl
      · intro b hb
        simp only [List.mem_singleton] at hb
        subst hb
        exact preVisit_vacuous rfl
    · refine (List.pairwise_append).mpr
        ⟨?_, ord_cols sc (cp ++ [i]) hsubv hids, ?_⟩
      · refine List.Pairwise.cons ?_ (List.Pairwise.cons ?_
          (List.Pairwise.cons ?_ (List.Pairwise.cons ?_
            (by simp [List.pairwise_singleton]))))
        · intro b hb
          simp only [List.mem_cons, List.not_mem_nil, or_false] at hb
          rcases hb with rfl | rfl | rfl | rfl
          · exact preVisit_vacuous rfl
          · exact preVisit_same_level (Nat.le_refl _) rfl
          · exact preVisit_vacuous rfl
          · exact preVisit_vacuous rfl
        · intro b hb
          simp only [List.mem_cons, List.not_mem_nil, or_false] at hb
          rcases hb with rfl | rfl | rfl
          · exact preVisit_same_level hmk rfl
          · exact preVisit_vacuous rfl
          · exact preVisit_vacuous rfl
        · intro b hb
          simp only [List.mem_cons, List.not_mem_nil, or_false] at hb
          rcases hb with rfl | rfl
          · exact preVisit_vacuous rfl
          · exact preVisit_vacuous rfl
        · intro b hb
          simp only [List.mem_singleton] at hb
          subst hb
          exact preVisit_vacuous rfl
      · intro a ha b hb
        have ha' : a.path.length ≤ (cp ++ [i]).length := by
          simp only [List.mem_cons, List.not_mem_nil, or_false] at ha
          rcases ha with rfl | rfl | rfl | rfl | rfl
          · exact Nat.le_refl _
          · exact hmk
          · exact Nat.le_refl _
          · exact Nat.le_refl _
          · exact Nat.le_refl _
        exact preVisit_into_deep ha' hdeep b hb
theorem ord_cols (cs : FCols) (dp : List String) (hv : validCols cs)
    (hids : (get_all_subcollections cs).Nodup) :
    (process_cols cs dp).Pairwise preVisit := by
  cases cs with
  | nil => rw [process_cols_nil]; exact List.Pairwise.nil
  | cons c rest =>
    rw [validCols_cons] at hv
    have hids' : get_all_subcollections (.cons c rest)
        = c.id :: get_all_subcollections rest := by
      simp [get_all_subcollections, FCols.toList]
    rw [hids'] at hids
    rw [process_cols_cons]
    refine (List.pairwise_append).mpr
      ⟨ord_collection c dp hv.1,
       ord_cols rest dp hv.2 (List.nodup_cons.mp hids).2, ?_⟩
    intro a ha b hb p hp
    rintro ⟨hu, -⟩
    obtain ⟨c', hc', hub⟩ := pathsUnder_cols rest dp b hb
    rw [rwPath_path (preVisit_rwPath hp)] at hub
    have hne : c.id ≠ c'.id := by
      intro heq
      apply (List.nodup_cons.mp hids).1
      rw [heq]
      exact List.mem_map.mpr ⟨c', hc', rfl⟩
    exact underPath_disjoint hne (pathsUnder_collection c dp a ha)
      (underPath_trans hub hu)
theorem ord_collection (c : FCol) (pp : List String) (hv : validCol c) :
    (process_collection c pp).Pairwise preVisit := by
  cases c with
  | mk i se ds =>
    rw [validCol_eq] at hv
    have hcase := process_collection_cases (.mk i se ds) pp
    simp only [FCol.id, FCol.docs] at hcase
    rcases hcase with h | h <;> rw [h]
    · simp [List.pairwise_singleton]
    · refine List.Pairwise.cons ?_ (ord_docs ds (pp ++ [i]) hv.2.2 hv.2.1)
      intro b hb p hp
      rintro ⟨hu, -⟩
      rcases pathsUnder_docs ds (pp ++ [i]) b hb with ⟨-, hnone⟩ | ⟨d, -, hub⟩
      · exact Option.noConfusion ((preVisit_rwPath hp).symm.trans hnone)
      · rw [rwPath_path (preVisit_rwPath hp)] at hub
        have hlen := underPath_one_length hub
        have h2 := underPath_length hu
        simp only [Event.path] at h2
        omega
theorem ord_docs (ds : FDocs) (cp : List String) (hv : validDocs ds)
    (hids : (docIds ds).Nodup) :
    (process_docs ds cp).Pairwise preVisit := by
  cases ds with
  | nil => rw [process_docs_nil]; exact List.Pairwise.nil
  | cons d rest =>
    rw [validDocs_cons] at hv
    have hids' : docIds (.cons d rest) = d.id :: docIds rest := by
      simp [docIds, FDocs.toList]
    rw [hids'] at hids
    rw [process_docs_cons]
    refine (List.pairwise_append).mpr
      ⟨ord_document d cp hv.1,
       ord_docs rest cp hv.2 (List.nodup_cons.mp hids).2, ?_⟩
    intro a ha b hb p hp
    rintro ⟨hu, -⟩
    rcases pathsUnder_docs rest cp b hb with ⟨-, hnone⟩ | ⟨d', hd', hub⟩
    · exact Option.noConfusion ((preVisit_rwPath hp).symm.trans hnone)
    · rw [rwPath_path (preVisit_rwPath hp)] at hub
      rcases pathsUnder_document d cp a ha with ⟨hpath, -⟩ | hua
      · have h1 := underPath_one_length hub
        have h2 := underPath_length hu
        rw [hpath] at h2
        omega
      · have hne : d.id ≠ d'.id := by
          intro heq
          apply (List.nodup_cons.mp hids).1
          rw [heq]
          exact List.mem_map.mpr ⟨d', hd', rfl⟩
        exact underPath_disjoint hne hua (underPath_trans hub hu)
end

mutual
/-- The depth-first pre-order listing of store paths, as the spec
prescribes the traversal ("document before its subcollections,
documents in the iteration order returned by the store").  This is the
spec-side description, to be compared with the reads the code performs. -/
def specPreorderDoc : FDoc → List String → List (List String)
  | .mk i _ _ _ _ subs, cp => (cp ++ [i]) :: specPreorderCols subs (cp ++ [i])
/-- Spec-side pre-order over a subcollection list. -/
def specPreorderCols : FCols → List String → List (List String)
  | .nil, _ => []
  | .cons c rest, dp => specPreorderCol c dp ++ specPreorderCols rest dp
/-- Spec-side pre-order over a collection. -/
def specPreorderCol : FCol → List String → List (List String)
  | .mk i _ docs, pp => (pp ++ [i]) :: specPreorderDocs docs (pp ++ [i])
/-- Spec-side pre-order over a document list. -/
def specPreorderDocs : FDocs → List String → List (List String)
  | .nil, _ => []
  | .cons d rest, cp => specPreorderDoc d cp ++ specPreorderDocs rest cp
end

theorem specPreorderDoc_eq (i : String) (de ge we : Bool) (dt : PyDict)
    (sc : FCols) (cp : List String) :
    specPreorderDoc (.mk i de ge we dt sc) cp
      = (cp ++ [i]) :: specPreorderCols sc (cp ++ [i]) := by
  conv_lhs => rw [specPreorderDoc.eq_def]

theorem specPreorderCols_nil (dp : List String) :
    specPreorderCols .nil dp = [] := by
  rw [specPreorderCols.eq_def]

theorem specPreorderCols_cons (c : FCol) (rest : FCols) (dp : List String) :
    specPreorderCols (.cons c rest) dp
      = specPreorderCol c dp ++ specPreorderCols rest dp := by
  rw [specPreorderCols.eq_def]

theorem specPreorderCol_eq (i : String) (se : Bool) (ds : FDocs)
    (pp : List String) :
    specPreorderCol (.mk i se ds) pp
      = (pp ++ [i]) :: specPreorderDocs ds (pp ++ [i]) := by
  conv_lhs => rw [specPreorderCol.eq_def]

theorem specPreorderDocs_nil (cp : List String) :
    specPreorderDocs .nil cp = [] := by
  rw [specPreorderDocs.eq_def]

theorem specPreorderDocs_cons (d : FDoc) (rest : FDocs) (cp : List String) :
    specPreorderDocs (.cons d rest) cp
      = specPreorderDoc d cp ++ specPreorderDocs rest cp := by
  rw [specPreorderDocs.eq_def]

mutual
/-- An error-free document subtree: the document exists, neither its
read nor its file write raises, its data serializes, and all its
subcollections are error-free. -/
def noErrorsDoc : FDoc → Prop
  | .mk _ de ge we dt subs =>
      de = true ∧ ge = false ∧ we = false ∧
      (encodeDict dt).isSome = true ∧ noErrorsCols subs
/-- Error-freedom of a subcollection list. -/
def noErrorsCols : FCols → Prop
  | .nil => True
  | .cons c rest => noErrorsCol c ∧ noErrorsCols rest
/-- An error-free collection subtree. -/
def noErrorsCol : FCol → Prop
  | .mk _ se docs => se = false ∧ noErrorsDocs docs
/-- Error-freedom of a document list. -/
def noErrorsDocs : FDocs → Prop
  | .nil => True
  | .cons d rest => noErrorsDoc d ∧ noErrorsDocs rest
end

theorem noErrorsDoc_eq (i : String) (de ge we : Bool) (dt : PyDict)
    (sc : FCols) :
    noErrorsDoc (.mk i de ge we dt sc) =
      (de = true ∧ ge = false ∧ we = false ∧
       (encodeDict dt).isSome = true ∧ noErrorsCols sc) := by
  conv_lhs => rw [noErrorsDoc.eq_def]

theorem noErrorsCols_nil : noErrorsCols .nil = True := by
  rw [noErrorsCols.eq_def]

theorem noErrorsCols_cons (c : FCol) (rest : FCols) :
    noErrorsCols (.cons c rest) = (noErrorsCol c ∧ noErrorsCols rest) := by
  rw [noErrorsCols.eq_def]

theorem noErrorsCol_eq (i : String) (se : Bool) (ds : FDocs) :
    noErrorsCol (.mk i se ds) = (se = false ∧ noErrorsDocs ds) := by
  conv_lhs => rw [noErrorsCol.eq_def]

theorem noErrorsDocs_nil : noErrorsDocs .nil = True := by
  rw [noErrorsDocs.eq_def]

theorem noErrorsDocs_cons (d : FDoc) (rest : FDocs) :
    noErrorsDocs (.cons d rest) = (noErrorsDoc d ∧ noErrorsDocs rest) := by
  rw [noErrorsDocs.eq_def]

theorem readPaths_append (a b : List Event) :
    readPaths (a ++ b) = readPaths a ++ readPaths b := by
  simp [readPaths, List.filterMap_append]

mutual
theorem reads_document (d : FDoc) (cp : List String) (h : noErrorsDoc d) :
    readPaths (process_document d cp) = specPreorderDoc d cp := by
  cases d with
  | mk i de ge we dt sc =>
    rw [noErrorsDoc_eq] at h
    obtain ⟨hde, hge, hwe, hs, hsub⟩ := h
    obtain ⟨j, hj⟩ := Option.isSome_iff_exists.mp hs
    subst hde hge hwe
    rw [process_document_eq, specPreorderDoc_eq]
    cases sc with
    | nil =>
      simp [doc_steps, hj, get_all_subcollections, FCols.toList,
        specPreorderCols_nil, readPaths, readKey, process_cols_nil]
    | cons c0 r0 =>
      have hun : doc_steps i true false false (encodeDict dt)
          (get_all_subcollections (.cons c0 r0))
          (process_cols (.cons c0 r0) (cp ++ [i])) cp
          = [.readDoc (cp ++ [i]), .mkdirs cp,
             .writeDoc (cp ++ [i]) (some j), .logSaved (cp ++ [i]),
             .writeMan (cp ++ [i]) (get_all_subcollections (.cons c0 r0))]
            ++ process_cols (.cons c0 r0) (cp ++ [i]) := by
        simp [doc_steps, hj, get_all_subcollections, FCols.toList]
      rw [hun, readPaths_append, reads_cols (.cons c0 r0) (cp ++ [i]) hsub]
      simp [readPaths, readKey]
theorem reads_cols (cs : FCols) (dp : List String) (h : noErrorsCols cs) :
    readPaths (process_cols cs dp) = specPreorderCols cs dp := by
  cases cs with
  | nil => simp [process_cols_nil, specPreorderCols_nil, readPaths]
  | cons c rest =>
    rw [noErrorsCols_cons] at h
    rw [process_cols_cons, readPaths_append, specPreorderCols_cons,
      reads_collection c dp h.1, reads_cols rest dp h.2]
theorem reads_collection (c : FCol) (pp : List String) (h : noErrorsCol c) :
    readPaths (process_collection c pp) = specPreorderCol c pp := by
  cases c with
  | mk i se ds =>
    rw [noErrorsCol_eq] at h
    obtain ⟨hse, hdocs⟩ := h
    subst hse
    rw [process_collection_eq, specPreorderCol_eq]
    have hun : col_steps i false (process_docs ds (pp ++ [i])) pp
        = .streamCol (pp ++ [i]) :: process_docs ds (pp ++ [i]) := by
      simp [col_steps]
    rw [hun]
    have : readPaths (Event.streamCol (pp ++ [i])
        :: process_docs ds (pp ++ [i]))
        = (pp ++ [i]) :: readPaths (process_docs ds (pp ++ [i])) := by
      simp [readPaths, readKey]
    rw [this, reads_docs ds (pp ++ [i]) hdocs]
theorem reads_docs (ds : FDocs) (cp : List String) (h : noErrorsDocs ds) :
    readPaths (process_docs ds cp) = specPreorderDocs ds cp := by
  cases ds with
  | nil => simp [process_docs_nil, specPreorderDocs_nil, readPaths]
  | cons d rest =>
    rw [noErrorsDocs_cons] at h
    rw [process_docs_cons, readPaths_append, specPreorderDocs_cons,
      reads_document d cp h.1, reads_docs rest cp h.2]
end

mutual
theorem specUnder_doc (d : FDoc) (cp : List String) :
    ∀ q ∈ specPreorderDoc d cp, underPath (cp ++ [d.id]) q := by
  cases d with
  | mk i de ge we dt sc =>
    simp only [FDoc.id]
    intro q hq
    rw [specPreorderDoc_eq] at hq
    rcases List.mem_cons.mp hq with rfl | hq
    · exact underPath_rfl _
    · obtain ⟨c, -, hu⟩ := specUnder_cols sc (cp ++ [i]) q hq
      exact underPath_trans (underPath_app _ _) hu
theorem specUnder_cols (cs : FCols) (dp : List String) :
    ∀ q ∈ specPreorderCols cs dp,
      ∃ c ∈ cs.toList, underPath (dp ++ [c.id]) q := by
  cases cs with
  | nil =>
    intro q hq
    rw [specPreorderCols_nil] at hq
    simp at hq
  | cons c rest =>
    intro q hq
    rw [specPreorderCols_cons, List.mem_append] at hq
    rcases hq with hq | hq
    · exact ⟨c, by simp [FCols.toList], specUnder_col c dp q hq⟩
    · obtain ⟨c', hc', hu⟩ := specUnder_cols rest dp q hq
      exact ⟨c', by simp [FCols.toList, hc'], hu⟩
theorem specUnder_col (c : FCol) (pp : List String) :
    ∀ q ∈ specPreorderCol c pp, underPath (pp ++ [c.id]) q := by
  cases c with
  | mk i se ds =>
    simp only [FCol.id]
    intro q hq
    rw [specPreorderCol_eq] at hq
    rcases List.mem_cons.mp hq with rfl | hq
    · exact underPath_rfl _
    · obtain ⟨d, -, hu⟩ := specUnder_docs ds (pp ++ [i]) q hq
      exact underPath_trans (underPath_app _ _) hu
theorem specUnder_docs (ds : FDocs) (cp : List String) :
    ∀ q ∈ specPreorderDocs ds cp,
      ∃ d ∈ ds.toList, underPath (cp ++ [d.id]) q := by
  cases ds with
  | nil =>
    intro q hq
    rw [specPreorderDocs_nil] at hq
    simp at hq
  | cons d rest =>
    intro q hq
    rw [specPreorderDocs_cons, List.mem_append] at hq
    rcases hq with hq | hq
    · exact ⟨d, by simp [FDocs.toList], specUnder_doc d cp q hq⟩
    · obtain ⟨d', hd', hu⟩ := specUnder_docs rest cp q hq
      exact ⟨d', by simp [FDocs.toList, hd'], hu⟩
end

mutual
theorem specNodup_doc (d : FDoc) (cp : List String) (hv : validDoc d) :
    (specPreorderDoc d cp).Nodup := by
  cases d with
  | mk i de ge we dt sc =>
    rw [validDoc_eq] at hv
    obtain ⟨-, -, hids, hsubv⟩ := hv
    rw [specPreorderDoc_eq]
    refine List.nodup_cons.mpr ⟨?_, specNodup_cols sc (cp ++ [i]) hsubv hids⟩
    intro hmem
    obtain ⟨c, -, hu⟩ := specUnder_cols sc (cp ++ [i]) _ hmem
    have := underPath_one_length hu
    omega
theorem specNodup_cols (cs : FCols) (dp : List String) (hv : validCols cs)
    (hids : (get_all_subcollections cs).Nodup) :
    (specPreorderCols cs dp).Nodup := by
  cases cs with
  | nil => rw [specPreorderCols_nil]; exact List.nodup_nil
  | cons c rest =>
    rw [validCols_cons] at hv
    have hids' : get_all_subcollections (.cons c rest)
        = c.id :: get_all_subcollections rest := by
      simp [get_all_subcollections, FCols.toList]
    rw [hids'] at hids
    rw [specPreorderCols_cons]
    refine List.Nodup.append (specNodup_col c dp hv.1)
      (specNodup_cols rest dp hv.2 (List.nodup_cons.mp hids).2) ?_
    intro q hq hq2
    have hu1 := specUnder_col c dp q hq
    obtain ⟨c', hc', hu2⟩ := specUnder_cols rest dp q hq2
    have hne : c.id ≠ c'.id := by
      intro heq
      apply (List.nodup_cons.mp hids).1
      rw [heq]
      exact List.mem_map.mpr ⟨c', hc', rfl⟩
    exact underPath_disjoint hne hu1 hu2
theorem specNodup_col (c : FCol) (pp : List String) (hv : validCol c) :
    (specPreorderCol c pp).Nodup := by
  cases c with
  | mk i se ds =>
    rw [validCol_eq] at hv
    obtain ⟨-, hids, hdv⟩ := hv
    rw [specPreorderCol_eq]
    refine List.nodup_cons.mpr ⟨?_, specNodup_docs ds (pp ++ [i]) hdv hids⟩
    intro hmem
    obtain ⟨d, -, hu⟩ := specUnder_docs ds (pp ++ [i]) _ hmem
    have := underPath_one_length hu
    omega
theorem specNodup_docs (ds : FDocs) (cp : List String) (hv : validDocs ds)
    (hids : (docIds ds).Nodup) :
    (specPreorderDocs ds cp).Nodup := by
  cases ds with
  | nil => rw [specPreorderDocs_nil]; exact List.nodup_nil
  | cons d rest =>
    rw [validDocs_cons] at hv
    have hids' : docIds (.cons d rest) = d.id :: docIds rest := by
      simp [docIds, FDocs.toList]
    rw [hids'] at hids
    rw [specPreorderDocs_cons]
    refine List.Nodup.append (specNodup_doc d cp hv.1)
      (specNodup_docs rest cp hv.2 (List.nodup_cons.mp hids).2) ?_
    intro q hq hq2
    have hu1 := specUnder_doc d cp q hq
    obtain ⟨d', hd', hu2⟩ := specUnder_docs rest cp q hq2
    have hne : d.id ≠ d'.id := by
      intro heq
      apply (List.nodup_cons.mp hids).1
      rw [heq]
      exact List.mem_map.mpr ⟨d', hd', rfl⟩
    exact underPath_disjoint hne hu1 hu2
end

def cexDocD : FDoc := .mk "d" true false false .nil .nil

def cexColS : FCol := .mk "s" false (.cons cexDocD .nil)

/-- A document named `a` with one subcollection `s`. -/
def cexDocA : FDoc := .mk "a" true false false .nil (.cons cexColS .nil)

/-- A sibling document legitimately named `a_subcollections`. -/
def cexDocB : FDoc := .mk "a_subcollections" true false false .nil .nil

/-- A store with distinct, slash-free sibling ids on which the claim
fails: the manifest file of `a` and the data file of `a_subcollections`
share the filesystem path `out/users/a_subcollections.json`. -/
def cexStore : FCol := .mk "users" false (.cons cexDocA (.cons cexDocB .nil))

/-- Counterexample to C5 as stated: on a store with pairwise-distinct
slash-free document ids (so the store's own path uniqueness holds), the
run writes the same file path twice — the manifest of document `a` and
the data file of its sibling `a_subcollections` — so "no export file is
written more than once within a run" is false. -/
theorem C5_depth_first_counterexample :
    (docIds (FCol.docs cexStore)).Nodup
    ∧ (∀ s ∈ docIds (FCol.docs cexStore), noSlash s)
    ∧ (fileNames "out" (process_collection cexStore [])).count
        "out/users/a_subcollections.json" = 2
    ∧ ¬ (fileNames "out" (process_collection cexStore [])).Nodup := by
  decide

/-- C5 amended: for a well-formed store (distinct sibling ids, slash-free
ids, and — the amendment the counterexample forces — no document id
ending in `"_subcollections"`), the run writes no file path twice; every
event of a document's subcollections comes after that document's read
and write (`preVisit` pre-order discipline); and in an error-free run
the store reads are exactly the depth-first pre-order listing of the
store's paths, each read exactly once. -/
theorem C5_depth_first_export (c : FCol) (base : String) (h : validCol c) :
    (fileNames base (process_collection c [])).Nodup
    ∧ (process_collection c []).Pairwise preVisit
    ∧ (noErrorsCol c →
        readPaths (process_collection c []) = specPreorderCol c []
        ∧ (readPaths (process_collection c [])).Nodup) := by
  refine ⟨?_, ord_collection c [] h, ?_⟩
  · rw [fileNames]
    refine (nodupKeys_collection c [] h).map_on ?_
    intro x hx y hy hxy
    exact renderKey_inj base x y
      (goodKeys_collection c [] h (by simp) x hx)
      (goodKeys_collection c [] h (by simp) y hy) hxy
  · intro hne
    have hr := reads_collection c [] hne
    exact ⟨hr, hr ▸ specNodup_col c [] h⟩

/-- Witness for the amended C5 on a concrete two-document store. -/
theorem C5_depth_first_export_witness :
    validCol demoUsers
    ∧ ((fileNames "out" (process_collection demoUsers [])).Nodup
      ∧ (process_collection demoUsers []).Pairwise preVisit
      ∧ (noErrorsCol demoUsers →
          readPaths (process_collection demoUsers [])
            = specPreorderCol demoUsers []
          ∧ (readPaths (process_collection demoUsers [])).Nodup)) := by
  have h1 : demoUsers
      = FCol.mk "users" false (.cons demoDoc1 (.cons demoDoc2 .nil)) := rfl
  have h2 : demoDoc1
      = FDoc.mk "u1" true false false (.cons "name" (.pystr "Ann") .nil) .nil := rfl
  have h3 : demoDoc2 = FDoc.mk "u2" true false false .nil .nil := rfl
  have hvalid : validCol demoUsers := by
    rw [h1, validCol_eq]
    refine ⟨by decide, by decide, ?_⟩
    rw [validDocs_cons, validDocs_cons, validDocs_nil]
    refine ⟨?_, ?_, trivial⟩
    · rw [h2, validDoc_eq]
      exact ⟨by decide, not_endsWithSub_short (by decide), by decide,
        by rw [validCols_nil]; trivial⟩
    · rw [h3, validDoc_eq]
      exact ⟨by decide, not_endsWithSub_short (by decide), by decide,
        by rw [validCols_nil]; trivial⟩
  exact ⟨hvalid, C5_depth_first_export demoUsers "out" hvalid⟩
